import Mathlib

/-!
Verification development for the compact-JSON decoder of `ConvertJSON`
(`src/time.py`).  The decoder is shallowly embedded over `List Char`:

* the five token regexes (`integer`, `string`, `array`, `endArr`, `boolean`)
  become the `matchInteger` .. `matchBoolean` functions, combined in the
  alternation order of the source by `tokM`; `re.search` over the anchored
  pattern becomes `lexSearch`;
* `decode.nestLevel` becomes `nestLevelF` (fuel-indexed, with the fuel later
  discharged by a sufficiency lemma and wrapped as `nestLevelRun`);
* `decode.convert` becomes `convertF` / `convertGo`;
* the decoded `Dict` becomes the `Record` type, Python `dict` insertion is
  `pyInsert`, Python `==` on keys is `pyEqK`, Python truthiness is `pyTruthy`;
* `ConvertJSON.find` / `ConvertJSON.findAll` become `find` / `findAll`.

Python exceptions are modelled by `PyErr`: `invalidArrayFormat` is the
`InvalidArrayFormat` the scanner raises (the spec's `MalformedToken`),
`valueError` the `ValueError` of a failed tuple unpacking or `int()` call,
`indexError` the `IndexError` of `nestLevel()[0]` on an empty list, and the
two `typeError` variants the `TypeError` of `len()` on a non-sequence and of
an unhashable (list) dict key.
-/

/-- Errors raised by the Python decoder. -/
inductive PyErr : Type where
  | invalidArrayFormat : List Char → PyErr
  | valueError : PyErr
  | indexError : PyErr
  | typeErrorLen : PyErr
  | typeErrorUnhashable : PyErr
deriving DecidableEq, Repr

/-- Length of the maximal digit prefix, the `[0-9]+` greedy run of the regexes. -/
def countDigits : List Char → Nat
  | [] => 0
  | c :: rest => if c.isDigit then countDigits rest + 1 else 0

/-- Length of the maximal prefix free of double quotes, the `[^\x22]*` run. -/
def countNotQuote : List Char → Nat
  | [] => 0
  | c :: rest => if c = '"' then 0 else countNotQuote rest + 1

/-- Extra length contributed by the optional trailing semicolon `;?`. -/
def semiExtra (l : List Char) : Nat :=
  if l.head? = some ';' then 1 else 0

/-- Regex `i:[0-9]+;?` anchored at the front: length of the match, if any. -/
def matchInteger (u : List Char) : Option Nat :=
  match u with
  | c1 :: c2 :: rest =>
    if c1 = 'i' ∧ c2 = ':' then
      let d := countDigits rest
      if d = 0 then none else some (2 + d + semiExtra (rest.drop d))
    else none
  | _ => none

/-- Regex `s:[0-9]+:\x22[^\x22]*\x22;?` anchored at the front. -/
def matchString (u : List Char) : Option Nat :=
  match u with
  | c1 :: c2 :: rest =>
    if c1 = 's' ∧ c2 = ':' then
      let d := countDigits rest
      if d = 0 then none
      else
        let r1 := rest.drop d
        if r1.head? = some ':' ∧ (r1.drop 1).head? = some '"' then
          let body := r1.drop 2
          let q := countNotQuote body
          if (body.drop q).head? = some '"' then
            some (2 + d + 2 + q + 1 + semiExtra (body.drop (q + 1)))
          else none
        else none
    else none
  | _ => none

/-- Regex `a:[0-9]+:\x7b` anchored at the front. -/
def matchArray (u : List Char) : Option Nat :=
  match u with
  | c1 :: c2 :: rest =>
    if c1 = 'a' ∧ c2 = ':' then
      let d := countDigits rest
      if d = 0 then none
      else
        let r1 := rest.drop d
        if r1.head? = some ':' ∧ (r1.drop 1).head? = some '{' then some (2 + d + 2)
        else none
    else none
  | _ => none

/-- Regex `\x7d` anchored at the front. -/
def matchEnd (u : List Char) : Option Nat :=
  if u.head? = some '}' then some 1 else none

/-- Regex `b:[01];?` anchored at the front. -/
def matchBoolean (u : List Char) : Option Nat :=
  match u with
  | c1 :: c2 :: c3 :: rest =>
    if c1 = 'b' ∧ c2 = ':' ∧ (c3 = '0' ∨ c3 = '1') then some (3 + semiExtra rest)
    else none
  | _ => none

/-- The `lexer` alternation, in the source's order
`integer | string | array | endArr | boolean`, tried at the front of the
buffer (every branch is `^`-anchored). -/
def tokM (u : List Char) : Option Nat :=
  match matchInteger u with
  | some k => some k
  | none =>
    match matchString u with
    | some k => some k
    | none =>
      match matchArray u with
      | some k => some k
      | none =>
        match matchEnd u with
        | some k => some k
        | none => matchBoolean u

/-- One attempt of `re.search` at byte position `i`: every alternative of the
pattern starts with `^`, which (without `re.MULTILINE`) only succeeds at
position 0. -/
def lexMatchAt (s : List Char) (i : Nat) : Option Nat :=
  if i = 0 then tokM s else none

/-- The position scan of `re.search`: try successive start positions and
return the first matching span `(start, stop)`. -/
def lexSearchGo (s : List Char) : Nat → Nat → Option (Nat × Nat)
  | 0, _ => none
  | k + 1, i =>
    match lexMatchAt s i with
    | some en => some (i, i + en)
    | none => lexSearchGo s k (i + 1)

/-- Model of `re.search(self.lexer, keyData)`: the span of the first match. -/
def lexSearch (s : List Char) : Option (Nat × Nat) :=
  lexSearchGo s (s.length + 1) 0

/-- Intermediate nodes produced by `nestLevel`: the Python list elements are
ints, strings, booleans or nested lists. -/
inductive Node : Type where
  | nint : Int → Node
  | nstr : List Char → Node
  | nbool : Bool → Node
  | nlist : List Node → Node
deriving Repr

/-- Model of `substring = substring[:-1]` after `substring.endswith(';')`. -/
def stripSemi (l : List Char) : List Char :=
  if l.getLast? = some ';' then l.dropLast else l

/-- Prepend a character to the first group of a split result. -/
def consHead (c : Char) : List (List Char) → List (List Char)
  | [] => [[c]]
  | h :: t => (c :: h) :: t

/-- Python `substring.split(':')`. -/
def pySplitColon : List Char → List (List Char)
  | [] => [[]]
  | c :: rest =>
    if c = ':' then [] :: pySplitColon rest else consHead c (pySplitColon rest)

/-- Worker for `re.split(colonStringSplit, _)`: split at each colon that is
preceded by `s` (the lookbehind) or followed by a double quote (the
lookahead). -/
def colonSplitGo (prev : Option Char) : List Char → List (List Char)
  | [] => [[]]
  | c :: rest =>
    if c = ':' ∧ (prev = some 's' ∨ rest.head? = some '"') then
      [] :: colonSplitGo (some c) rest
    else consHead c (colonSplitGo (some c) rest)

/-- Python `re.split(self.colonStringSplit, substring)`. -/
def colonSplit (s : List Char) : List (List Char) :=
  colonSplitGo none s

/-- Python `int(value)` on the digit strings the lexer produces: defined on
nonempty all-digit strings, `ValueError` (`none`) otherwise. -/
def pyIntOfDigits (v : List Char) : Option Int :=
  if v ≠ [] ∧ v.all Char.isDigit then
    some (v.foldl (fun a c => a * 10 + (c.toNat - '0'.toNat)) 0)
  else none

/-- Outcome of one iteration of the `nestLevel` while-loop body, after the
token text has been cut off and its trailing semicolon stripped. -/
inductive StepAction : Type where
  | push : Node → StepAction
  | skip : StepAction
  | enter : StepAction
  | exit : StepAction
  | fail : PyErr → StepAction
deriving Repr

/-- Dispatch of the `if substring.startswith(...)` chain of `nestLevel`, in
source order `a`, `i`, `s`, `b`, `\x7d`; a substring starting with none of
them falls through the chain and the loop just continues (`skip`).
The boolean branch is Python's `bool(value)`: the truthiness of the digit
STRING, hence `true` whenever the digit text is nonempty. -/
def stepOf (sub : List Char) : StepAction :=
  if sub.head? = some 'a' then .enter
  else if sub.head? = some 'i' then
    match pySplitColon sub with
    | [_, v] =>
      match pyIntOfDigits v with
      | some n => .push (.nint n)
      | none => .fail .valueError
    | _ => .fail .valueError
  else if sub.head? = some 's' then
    match colonSplit sub with
    | [_, _, v] => .push (.nstr (v.drop 1).dropLast)
    | _ => .fail .valueError
  else if sub.head? = some 'b' then
    match pySplitColon sub with
    | [_, v] => .push (.nbool (decide (v ≠ [])))
    | _ => .fail .valueError
  else if sub.head? = some '}' then .exit
  else .skip

/-- Fuel-indexed model of `decode.nestLevel`.  `none` means the fuel ran out
(shown impossible for fuel above the buffer length); otherwise the result is
the Python return value together with the final state of the nonlocal
`keyData` buffer.  An exhausted buffer returns the current list (the final
`return currentList` after the while-loop); a failed search raises
`InvalidArrayFormat(keyData)`; an `a` token recurses with a fresh list; a
closing brace returns the current list to the caller. -/
def nestLevelF : Nat → List Char → List Node → Option (Except PyErr (List Node × List Char))
  | 0, _, _ => none
  | _ + 1, [], acc => some (.ok (acc, []))
  | n + 1, c :: cs, acc =>
    match lexSearch (c :: cs) with
    | none => some (.error (.invalidArrayFormat (c :: cs)))
    | some (_, en) =>
      match stepOf (stripSemi ((c :: cs).take en)) with
      | .fail e => some (.error e)
      | .push nd => nestLevelF n ((c :: cs).drop en) (acc ++ [nd])
      | .skip => nestLevelF n ((c :: cs).drop en) acc
      | .exit => some (.ok (acc, (c :: cs).drop en))
      | .enter =>
        match nestLevelF n ((c :: cs).drop en) [] with
        | none => none
        | some (.error e) => some (.error e)
        | some (.ok (child, r2)) => nestLevelF n r2 (acc ++ [.nlist child])

/-- Dict keys: the hashable scalar values that can sit at even positions. -/
inductive NKey : Type where
  | kint : Int → NKey
  | kstr : List Char → NKey
  | kbool : Bool → NKey
deriving DecidableEq, Repr

mutual
/-- Values stored in a decoded `Record`: Python int, str, bool, or dict. -/
inductive Value : Type where
  | vint : Int → Value
  | vstr : List Char → Value
  | vbool : Bool → Value
  | vrec : Record → Value

/-- The decoded dictionary, as an insertion-ordered association structure
(Python 3.7+ `dict` preserves insertion order). -/
inductive Record : Type where
  | nil : Record
  | cons : NKey → Value → Record → Record
end

/-- Python `==` on dict keys (note `True == 1` and `False == 0`). -/
def pyEqK : NKey → NKey → Bool
  | .kint m, .kint n => m == n
  | .kstr a, .kstr b => a == b
  | .kbool a, .kbool b => a == b
  | .kbool a, .kint n => (if a then (1 : Int) else 0) == n
  | .kint n, .kbool a => n == (if a then (1 : Int) else 0)
  | _, _ => false

/-- Python `d[key] = val`: replace the value in place if an equal key is
present (keeping the stored key and its position), else append. -/
def pyInsert : Record → NKey → Value → Record
  | .nil, k, v => .cons k v .nil
  | .cons ky w rest, k, v =>
    if pyEqK ky k then .cons ky v rest else .cons ky w (pyInsert rest k v)

/-- Hashability of a node used as a dict key: a list key raises `TypeError`. -/
def nodeKey : Node → Option NKey
  | .nint n => some (.kint n)
  | .nstr s => some (.kstr s)
  | .nbool b => some (.kbool b)
  | .nlist _ => none

/-- Fuel-indexed model of `decode.convert`: fold the element list into a dict
pairwise, positions `(0,1), (2,3), ...`; a trailing unmatched element is
dropped by the `zip`; a list value recurses; a list key raises `TypeError`
at the `dict` assignment (after the recursive conversion of the value, which
Python evaluates first). -/
def convertF : Nat → List Node → Record → Option (Except PyErr Record)
  | 0, _, _ => none
  | _ + 1, [], acc => some (.ok acc)
  | _ + 1, [_], acc => some (.ok acc)
  | n + 1, k :: v :: rest, acc =>
    match v with
    | .nlist sub =>
      match convertF n sub .nil with
      | none => none
      | some (.error e) => some (.error e)
      | some (.ok r2) =>
        match nodeKey k with
        | none => some (.error .typeErrorUnhashable)
        | some key => convertF n rest (pyInsert acc key (.vrec r2))
    | .nint m =>
      match nodeKey k with
      | none => some (.error .typeErrorUnhashable)
      | some key => convertF n rest (pyInsert acc key (.vint m))
    | .nstr s =>
      match nodeKey k with
      | none => some (.error .typeErrorUnhashable)
      | some key => convertF n rest (pyInsert acc key (.vstr s))
    | .nbool b =>
      match nodeKey k with
      | none => some (.error .typeErrorUnhashable)
      | some key => convertF n rest (pyInsert acc key (.vbool b))

/-- A successful integer match has positive length. -/
theorem matchInteger_pos {u : List Char} {k : Nat} (h : matchInteger u = some k) : 0 < k := by
  rcases u with _ | ⟨c1, _ | ⟨c2, rest⟩⟩ <;> simp only [matchInteger] at h
  all_goals try exact Option.noConfusion h
  split_ifs at h
  all_goals try exact Option.noConfusion h
  all_goals injection h with h2
  all_goals omega

/-- A successful string match has positive length. -/
theorem matchString_pos {u : List Char} {k : Nat} (h : matchString u = some k) : 0 < k := by
  rcases u with _ | ⟨c1, _ | ⟨c2, rest⟩⟩ <;> simp only [matchString] at h
  all_goals try exact Option.noConfusion h
  split_ifs at h
  all_goals try exact Option.noConfusion h
  all_goals injection h with h2
  all_goals omega

/-- A successful array-open match has positive length. -/
theorem matchArray_pos {u : List Char} {k : Nat} (h : matchArray u = some k) : 0 < k := by
  rcases u with _ | ⟨c1, _ | ⟨c2, rest⟩⟩ <;> simp only [matchArray] at h
  all_goals try exact Option.noConfusion h
  split_ifs at h
  all_goals try exact Option.noConfusion h
  all_goals injection h with h2
  all_goals omega

/-- A successful array-close match has positive length. -/
theorem matchEnd_pos {u : List Char} {k : Nat} (h : matchEnd u = some k) : 0 < k := by
  unfold matchEnd at h
  split_ifs at h
  all_goals try exact Option.noConfusion h
  all_goals injection h with h2
  all_goals omega

/-- A successful boolean match has positive length. -/
theorem matchBoolean_pos {u : List Char} {k : Nat} (h : matchBoolean u = some k) : 0 < k := by
  rcases u with _ | ⟨c1, _ | ⟨c2, _ | ⟨c3, rest⟩⟩⟩ <;> simp only [matchBoolean] at h
  all_goals try exact Option.noConfusion h
  split_ifs at h
  all_goals try exact Option.noConfusion h
  all_goals injection h with h2
  all_goals omega

/-- Every token the lexer accepts is nonempty. -/
theorem tokM_pos {u : List Char} {k : Nat} (h : tokM u = some k) : 0 < k := by
  unfold tokM at h
  cases h1 : matchInteger u with
  | some k1 => rw [h1] at h; exact (Option.some.inj h) ▸ matchInteger_pos h1
  | none =>
    rw [h1] at h
    cases h2 : matchString u with
    | some k2 => rw [h2] at h; exact (Option.some.inj h) ▸ matchString_pos h2
    | none =>
      rw [h2] at h
      cases h3 : matchArray u with
      | some k3 => rw [h3] at h; exact (Option.some.inj h) ▸ matchArray_pos h3
      | none =>
        rw [h3] at h
        cases h4 : matchEnd u with
        | some k4 => rw [h4] at h; exact (Option.some.inj h) ▸ matchEnd_pos h4
        | none => rw [h4] at h; exact matchBoolean_pos h

/-- Away from position 0, the anchored pattern can never match, so the scan
returns nothing from any positive position. -/
theorem lexSearchGo_pos_none (s : List Char) :
    ∀ (k i : Nat), 0 < i → lexSearchGo s k i = none := by
  intro k
  induction k with
  | zero => intro i _; rfl
  | succ k ih =>
    intro i hi
    have : lexMatchAt s i = none := by unfold lexMatchAt; simp [Nat.pos_iff_ne_zero.mp hi]
    simp only [lexSearchGo, this]
    exact ih (i + 1) (by omega)

/-- The search over the anchored alternation reduces to a front match. -/
theorem lexSearch_eq (s : List Char) :
    lexSearch s = (tokM s).map (fun en => (0, en)) := by
  unfold lexSearch
  simp only [lexSearchGo, lexMatchAt, if_pos rfl]
  cases h : tokM s with
  | some en => simp
  | none => simp [lexSearchGo_pos_none s s.length 1 (by omega)]

/-- A successful search yields a span that starts at position 0 and whose
length is the front-token match. -/
theorem lexSearch_some {s : List Char} {st en : Nat}
    (h : lexSearch s = some (st, en)) : st = 0 ∧ tokM s = some en := by
  rw [lexSearch_eq] at h
  cases ht : tokM s with
  | none => rw [ht] at h; exact absurd h (by simp)
  | some k =>
    rw [ht] at h
    simp only [Option.map_some', Option.some.injEq, Prod.mk.injEq] at h
    exact ⟨h.1.symm, by rw [h.2]⟩

/-- A failed front match makes the whole search fail. -/
theorem lexSearch_none {s : List Char} (h : tokM s = none) : lexSearch s = none := by
  rw [lexSearch_eq, h]; rfl

/-- The leftover buffer `nestLevel` hands back never grows. -/
theorem nestLevelF_rest (n : Nat) :
    ∀ (s : List Char) (acc l : List Node) (r : List Char),
      nestLevelF n s acc = some (.ok (l, r)) → r.length ≤ s.length := by
  induction n with
  | zero => intro s acc l r h; exact Option.noConfusion h
  | succ n ih =>
    intro s acc l r h
    match s with
    | [] =>
      simp only [nestLevelF, Option.some.injEq, Except.ok.injEq, Prod.mk.injEq] at h
      obtain ⟨-, rfl⟩ := h
      simp
    | c :: cs =>
      simp only [nestLevelF] at h
      cases hs : lexSearch (c :: cs) with
      | none => rw [hs] at h; simp at h
      | some p =>
        obtain ⟨st, en⟩ := p
        rw [hs] at h
        simp only at h
        have hdrop : ((c :: cs).drop en).length ≤ (c :: cs).length := by
          simp [List.length_drop]
        cases hstep : stepOf (stripSemi ((c :: cs).take en)) with
        | fail e => rw [hstep] at h; simp at h
        | push nd => rw [hstep] at h; exact le_trans (ih _ _ _ _ h) hdrop
        | skip => rw [hstep] at h; exact le_trans (ih _ _ _ _ h) hdrop
        | exit =>
          rw [hstep] at h
          simp only [Option.some.injEq, Except.ok.injEq, Prod.mk.injEq] at h
          obtain ⟨-, rfl⟩ := h
          exact hdrop
        | enter =>
          rw [hstep] at h
          cases hin : nestLevelF n ((c :: cs).drop en) [] with
          | none => rw [hin] at h; exact Option.noConfusion h
          | some res =>
            rw [hin] at h
            cases res with
            | error e => simp at h
            | ok pr =>
              obtain ⟨child, r2⟩ := pr
              have h1 := ih _ _ _ _ hin
              have h2 := ih _ _ _ _ h
              omega

/-- With fuel above the buffer length, `nestLevelF` always delivers. -/
theorem nestLevelF_isSome (n : Nat) :
    ∀ (s : List Char) (acc : List Node), s.length < n → (nestLevelF n s acc).isSome := by
  induction n with
  | zero => intro s acc h; omega
  | succ n ih =>
    intro s acc h
    match s with
    | [] => simp [nestLevelF]
    | c :: cs =>
      simp only [nestLevelF]
      cases hs : lexSearch (c :: cs) with
      | none => simp
      | some p =>
        obtain ⟨st, en⟩ := p
        have hen : 0 < en := tokM_pos (lexSearch_some hs).2
        have hdrop : ((c :: cs).drop en).length < n := by
          simp only [List.length_drop, List.length_cons] at *
          omega
        simp only
        cases hstep : stepOf (stripSemi ((c :: cs).take en)) with
        | fail e => simp
        | push nd => exact ih _ _ hdrop
        | skip => exact ih _ _ hdrop
        | exit => simp
        | enter =>
          obtain ⟨res, hres⟩ := Option.isSome_iff_exists.mp (ih ((c :: cs).drop en) [] hdrop)
          rw [hres]
          cases res with
          | error e => simp
          | ok pr =>
            obtain ⟨child, r2⟩ := pr
            have h1 := nestLevelF_rest n _ _ _ _ hres
            exact ih _ _ (by omega)

/-- Fuel monotonicity of `nestLevelF`. -/
theorem nestLevelF_mono (n : Nat) :
    ∀ (m : Nat) (s : List Char) (acc : List Node) (r : Except PyErr (List Node × List Char)),
      n ≤ m → nestLevelF n s acc = some r → nestLevelF m s acc = some r := by
  induction n with
  | zero => intro m s acc r _ h; exact Option.noConfusion h
  | succ n ih =>
    intro m s acc r hnm h
    obtain ⟨m, rfl⟩ : ∃ m', m = m' + 1 := ⟨m - 1, by omega⟩
    match s with
    | [] => exact h
    | c :: cs =>
      simp only [nestLevelF] at h ⊢
      cases hs : lexSearch (c :: cs) with
      | none => rw [hs] at h; exact h
      | some p =>
        obtain ⟨st, en⟩ := p
        rw [hs] at h
        simp only at h ⊢
        cases hstep : stepOf (stripSemi ((c :: cs).take en)) with
        | fail e => rw [hstep] at h; exact h
        | push nd => rw [hstep] at h; exact ih m _ _ _ (by omega) h
        | skip => rw [hstep] at h; exact ih m _ _ _ (by omega) h
        | exit => rw [hstep] at h; exact h
        | enter =>
          rw [hstep] at h
          cases hin : nestLevelF n ((c :: cs).drop en) [] with
          | none => rw [hin] at h; exact Option.noConfusion h
          | some res =>
            rw [hin] at h
            rw [ih m _ _ _ (by omega) hin]
            cases res with
            | error e => exact h
            | ok pr =>
              obtain ⟨child, r2⟩ := pr
              exact ih m _ _ _ (by omega) h

/-- Total wrapper for `decode.nestLevel`: run with sufficient fuel. -/
def nestLevelRun (s : List Char) (acc : List Node) : Except PyErr (List Node × List Char) :=
  (nestLevelF (s.length + 1) s acc).get (nestLevelF_isSome _ _ _ (Nat.lt_succ_self _))

/-- Any terminating fueled evaluation agrees with the total wrapper. -/
theorem nestLevelRun_eq {n : Nat} {s : List Char} {acc : List Node}
    {r : Except PyErr (List Node × List Char)}
    (h : nestLevelF n s acc = some r) : nestLevelRun s acc = r := by
  have h1 : nestLevelF (s.length + 1) s acc = some (nestLevelRun s acc) :=
    (Option.some_get _).symm
  have h2 := nestLevelF_mono n (max n (s.length + 1)) s acc r (le_max_left _ _) h
  have h3 := nestLevelF_mono (s.length + 1) (max n (s.length + 1)) s acc _ (le_max_right _ _) h1
  rw [h2] at h3
  exact (Option.some.inj h3).symm

mutual
/-- Executable size of a node, driving the converter's fuel. -/
def nodeSize : Node → Nat
  | .nint _ => 1
  | .nstr _ => 1
  | .nbool _ => 1
  | .nlist l => 1 + nodeListSize l

/-- Executable size of a node list. -/
def nodeListSize : List Node → Nat
  | [] => 0
  | n :: rest => 1 + nodeSize n + nodeListSize rest
end

/-- Size distributes over list concatenation. -/
theorem nodeListSize_append (a b : List Node) :
    nodeListSize (a ++ b) = nodeListSize a + nodeListSize b := by
  induction a with
  | nil => simp [nodeListSize]
  | cons x xs ih => simp [nodeListSize, ih]; omega

/-- With fuel above the node-list size, `convertF` always delivers. -/
theorem convertF_isSome (n : Nat) :
    ∀ (l : List Node) (acc : Record), nodeListSize l < n → (convertF n l acc).isSome := by
  induction n with
  | zero => intro l acc h; omega
  | succ n ih =>
    intro l acc h
    match l with
    | [] => simp [convertF]
    | [x] => simp [convertF]
    | k :: v :: rest =>
      have hrest : nodeListSize rest < n := by
        simp only [nodeListSize] at h; omega
      cases v with
      | nlist sub =>
        have hsub : nodeListSize sub < n := by
          simp only [nodeListSize, nodeSize] at h; omega
        simp only [convertF]
        obtain ⟨res, hres⟩ := Option.isSome_iff_exists.mp (ih sub .nil hsub)
        rw [hres]
        cases res with
        | error e => simp
        | ok r2 =>
          cases nodeKey k with
          | none => simp
          | some key => exact ih rest _ hrest
      | nint m =>
        simp only [convertF]
        cases nodeKey k with
        | none => simp
        | some key => exact ih rest _ hrest
      | nstr s =>
        simp only [convertF]
        cases nodeKey k with
        | none => simp
        | some key => exact ih rest _ hrest
      | nbool b =>
        simp only [convertF]
        cases nodeKey k with
        | none => simp
        | some key => exact ih rest _ hrest

/-- Fuel monotonicity of `convertF`. -/
theorem convertF_mono (n : Nat) :
    ∀ (m : Nat) (l : List Node) (acc : Record) (r : Except PyErr Record),
      n ≤ m → convertF n l acc = some r → convertF m l acc = some r := by
  induction n with
  | zero => intro m l acc r _ h; exact Option.noConfusion h
  | succ n ih =>
    intro m l acc r hnm h
    obtain ⟨m, rfl⟩ : ∃ m', m = m' + 1 := ⟨m - 1, by omega⟩
    match l with
    | [] => exact h
    | [x] => exact h
    | k :: v :: rest =>
      cases v with
      | nlist sub =>
        simp only [convertF] at h ⊢
        cases hsub : convertF n sub .nil with
        | none => rw [hsub] at h; exact Option.noConfusion h
        | some res =>
          rw [hsub] at h
          rw [ih m sub .nil res (by omega) hsub]
          cases res with
          | error e => exact h
          | ok r2 =>
            cases hk : nodeKey k with
            | none => rw [hk] at h; exact h
            | some key => rw [hk] at h; exact ih m rest _ r (by omega) h
      | nint mm =>
        simp only [convertF] at h ⊢
        cases hk : nodeKey k with
        | none => rw [hk] at h; exact h
        | some key => rw [hk] at h; exact ih m rest _ r (by omega) h
      | nstr s =>
        simp only [convertF] at h ⊢
        cases hk : nodeKey k with
        | none => rw [hk] at h; exact h
        | some key => rw [hk] at h; exact ih m rest _ r (by omega) h
      | nbool b =>
        simp only [convertF] at h ⊢
        cases hk : nodeKey k with
        | none => rw [hk] at h; exact h
        | some key => rw [hk] at h; exact ih m rest _ r (by omega) h

/-- Total wrapper for `decode.convert` (with accumulator). -/
def convertGo (l : List Node) (acc : Record) : Except PyErr Record :=
  (convertF (nodeListSize l + 1) l acc).get (convertF_isSome _ _ _ (Nat.lt_succ_self _))

/-- Any terminating fueled conversion agrees with the total wrapper. -/
theorem convertGo_eq {n : Nat} {l : List Node} {acc : Record} {r : Except PyErr Record}
    (h : convertF n l acc = some r) : convertGo l acc = r := by
  have h1 : convertF (nodeListSize l + 1) l acc = some (convertGo l acc) :=
    (Option.some_get _).symm
  have h2 := convertF_mono n (max n (nodeListSize l + 1)) l acc r (le_max_left _ _) h
  have h3 :=
    convertF_mono (nodeListSize l + 1) (max n (nodeListSize l + 1)) l acc _ (le_max_right _ _) h1
  rw [h2] at h3
  exact (Option.some.inj h3).symm

/-- Model of `decode.convert` run on a Python STRING instead of a list: `len`,
indexing and the loop all still work, pairing up the characters (each a
length-1 string) as key and value. -/
def convertStrGo : List Char → Record → Record
  | [], acc => acc
  | [_], acc => acc
  | c1 :: c2 :: rest, acc => convertStrGo rest (pyInsert acc (.kstr [c1]) (.vstr [c2]))

/-- Dispatch of `convert(nestLevel()[0])` on the type of the unwrapped first
element: a list converts recursively, a string pairs its characters, and an
int or bool raises `TypeError` at `len(multiLevelArray)`. -/
def convertTop : Node → Except PyErr Record
  | .nlist l => convertGo l .nil
  | .nstr cs => .ok (convertStrGo cs .nil)
  | .nint _ => .error .typeErrorLen
  | .nbool _ => .error .typeErrorLen

/-- The Builder stage of `decode`: the full `nestLevel()` call on the raw
line, starting with a fresh list. -/
def builderOut (s : List Char) : Except PyErr (List Node × List Char) :=
  nestLevelRun s []

/-- Model of `ConvertJSON.decode` on the text of the key file's first line:
`convert(nestLevel()[0])`.  Indexing an empty result list raises
`IndexError`; the leftover buffer (nonempty only when an unmatched closing
brace cut the top level short) is discarded. -/
def decode (s : List Char) : Except PyErr Record :=
  match builderOut s with
  | .error e => .error e
  | .ok (lst, _) =>
    match lst.head? with
    | none => .error .indexError
    | some nd => convertTop nd

/-- Evaluating with any strictly sufficient fuel lands on the wrapper value. -/
theorem nestLevelF_run_of_lt {n : Nat} {s : List Char} {acc : List Node}
    (h : s.length < n) : nestLevelF n s acc = some (nestLevelRun s acc) := by
  obtain ⟨v, hv⟩ := Option.isSome_iff_exists.mp (nestLevelF_isSome n s acc h)
  rw [hv, nestLevelRun_eq hv]

/-- The wrapper also satisfies the shrinking-buffer property. -/
theorem nestLevelRun_rest {s : List Char} {acc l : List Node} {r : List Char}
    (h : nestLevelRun s acc = .ok (l, r)) : r.length ≤ s.length := by
  have h1 : nestLevelF (s.length + 1) s acc = some (.ok (l, r)) := by
    rw [← h]; exact (Option.some_get _).symm
  exact nestLevelF_rest _ _ _ _ _ h1

/-- An exhausted buffer ends the loop and returns the current list. -/
theorem nestLevelRun_nil (acc : List Node) : nestLevelRun [] acc = .ok (acc, []) :=
  nestLevelRun_eq (show nestLevelF 1 [] acc = some (Except.ok (acc, ([] : List Char))) from rfl)

/-- A buffer the anchored lexer cannot match raises `InvalidArrayFormat`. -/
theorem nestLevelRun_noMatch {c : Char} {cs : List Char} (acc : List Node)
    (h : tokM (c :: cs) = none) :
    nestLevelRun (c :: cs) acc = .error (.invalidArrayFormat (c :: cs)) := by
  apply @nestLevelRun_eq ((c :: cs).length + 1)
  simp only [nestLevelF, lexSearch_none h]

/-- One scalar step of the while-loop: consume the token, append the node. -/
theorem nestLevelRun_push {c : Char} {cs : List Char} {en : Nat} {nd : Node}
    (acc : List Node) (h : tokM (c :: cs) = some en)
    (hstep : stepOf (stripSemi ((c :: cs).take en)) = .push nd) :
    nestLevelRun (c :: cs) acc = nestLevelRun ((c :: cs).drop en) (acc ++ [nd]) := by
  have hse : lexSearch (c :: cs) = some (0, en) := by rw [lexSearch_eq, h]; rfl
  have hen : 0 < en := tokM_pos h
  apply @nestLevelRun_eq ((c :: cs).length + 1)
  simp only [nestLevelF, hse, hstep]
  exact nestLevelF_run_of_lt (by simp only [List.length_drop, List.length_cons]; omega)

/-- One fall-through step: consume the token, append nothing. -/
theorem nestLevelRun_skip {c : Char} {cs : List Char} {en : Nat}
    (acc : List Node) (h : tokM (c :: cs) = some en)
    (hstep : stepOf (stripSemi ((c :: cs).take en)) = .skip) :
    nestLevelRun (c :: cs) acc = nestLevelRun ((c :: cs).drop en) acc := by
  have hse : lexSearch (c :: cs) = some (0, en) := by rw [lexSearch_eq, h]; rfl
  have hen : 0 < en := tokM_pos h
  apply @nestLevelRun_eq ((c :: cs).length + 1)
  simp only [nestLevelF, hse, hstep]
  exact nestLevelF_run_of_lt (by simp only [List.length_drop, List.length_cons]; omega)

/-- A failing loop body raises the corresponding exception. -/
theorem nestLevelRun_fail {c : Char} {cs : List Char} {en : Nat} {e : PyErr}
    (acc : List Node) (h : tokM (c :: cs) = some en)
    (hstep : stepOf (stripSemi ((c :: cs).take en)) = .fail e) :
    nestLevelRun (c :: cs) acc = .error e := by
  have hse : lexSearch (c :: cs) = some (0, en) := by rw [lexSearch_eq, h]; rfl
  apply @nestLevelRun_eq ((c :: cs).length + 1)
  simp only [nestLevelF, hse, hstep]

/-- A closing brace returns the current list one level up, leaving the rest
of the buffer untouched. -/
theorem nestLevelRun_exit {c : Char} {cs : List Char} {en : Nat}
    (acc : List Node) (h : tokM (c :: cs) = some en)
    (hstep : stepOf (stripSemi ((c :: cs).take en)) = .exit) :
    nestLevelRun (c :: cs) acc = .ok (acc, (c :: cs).drop en) := by
  have hse : lexSearch (c :: cs) = some (0, en) := by rw [lexSearch_eq, h]; rfl
  apply @nestLevelRun_eq ((c :: cs).length + 1)
  simp only [nestLevelF, hse, hstep]

/-- An array-open token recurses with a fresh list, then continues the loop
behind the recursive call's final buffer. -/
theorem nestLevelRun_enter {c : Char} {cs : List Char} {en : Nat}
    (acc : List Node) (h : tokM (c :: cs) = some en)
    (hstep : stepOf (stripSemi ((c :: cs).take en)) = .enter) :
    nestLevelRun (c :: cs) acc =
      match nestLevelRun ((c :: cs).drop en) [] with
      | .error e => .error e
      | .ok (child, r2) => nestLevelRun r2 (acc ++ [.nlist child]) := by
  have hse : lexSearch (c :: cs) = some (0, en) := by rw [lexSearch_eq, h]; rfl
  have hen : 0 < en := tokM_pos h
  have hdrop : ((c :: cs).drop en).length < (c :: cs).length := by
    simp only [List.length_drop, List.length_cons]; omega
  apply @nestLevelRun_eq ((c :: cs).length + 1)
  simp only [nestLevelF, hse, hstep]
  rw [nestLevelF_run_of_lt hdrop]
  cases hin : nestLevelRun ((c :: cs).drop en) [] with
  | error e => rfl
  | ok pr =>
    obtain ⟨child, r2⟩ := pr
    have hr2 : r2.length ≤ ((c :: cs).drop en).length := nestLevelRun_rest hin
    exact nestLevelF_run_of_lt (by omega)

/-- Emptiness test for a record. -/
def recIsNil : Record → Bool
  | .nil => true
  | .cons _ _ _ => false

/-- Python truthiness of a decoded value: `0`, the empty string, `False` and
the empty dict are falsy, everything else truthy. -/
def pyTruthy : Value → Bool
  | .vint n => n != 0
  | .vstr s => !s.isEmpty
  | .vbool b => b
  | .vrec r => !recIsNil r

mutual
/-- Model of `ConvertJSON.find` (the inner `traverse`): walk the entries in
order; a key hit returns the value at once; a dict value is searched
recursively, but the recursive result is only returned when it is TRUTHY
(`if res: return res`), otherwise the loop moves on. -/
def find (key : NKey) : Record → Option Value
  | .nil => none
  | .cons ky value rest =>
    if pyEqK ky key then some value
    else
      match findV key value with
      | some res => if pyTruthy res then some res else find key rest
      | none => find key rest

/-- Recursion guard of `find`: only dict values are entered. -/
def findV (key : NKey) : Value → Option Value
  | .vrec r => find key r
  | _ => none
end

mutual
/-- Model of `ConvertJSON.findAll`: collect every hit in discovery order,
descending into every dict value (even one whose key matched). -/
def findAll (key : NKey) : Record → List Value
  | .nil => []
  | .cons ky value rest =>
    (if pyEqK ky key then [value] else []) ++ findAllV key value ++ findAll key rest

/-- Recursion guard of `findAll`: only dict values are entered. -/
def findAllV (key : NKey) : Value → List Value
  | .vrec r => findAll key r
  | _ => []
end

mutual
/-- State-passing reading of `find`: alongside the Python return value,
reconstruct the record as the traversal leaves it (no statement in the
source writes to it, so every branch rebuilds what it read). -/
def findSt (key : NKey) : Record → Option Value × Record
  | .nil => (none, .nil)
  | .cons ky value rest =>
    if pyEqK ky key then (some value, .cons ky value rest)
    else
      match findStV key value with
      | (some res, value2) =>
        if pyTruthy res then (some res, .cons ky value2 rest)
        else
          match findSt key rest with
          | (res2, rest2) => (res2, .cons ky value2 rest2)
      | (none, value2) =>
        match findSt key rest with
        | (res2, rest2) => (res2, .cons ky value2 rest2)

/-- State-passing reading of `find`'s recursion guard. -/
def findStV (key : NKey) : Value → Option Value × Value
  | .vrec r =>
    match findSt key r with
    | (res, r2) => (res, .vrec r2)
  | v => (none, v)
end

mutual
/-- State-passing reading of `findAll`. -/
def findAllSt (key : NKey) : Record → List Value × Record
  | .nil => ([], .nil)
  | .cons ky value rest =>
    match findAllStV key value with
    | (occ1, value2) =>
      match findAllSt key rest with
      | (occ2, rest2) =>
        ((if pyEqK ky key then [value] else []) ++ occ1 ++ occ2, .cons ky value2 rest2)

/-- State-passing reading of `findAll`'s recursion guard. -/
def findAllStV (key : NKey) : Value → List Value × Value
  | .vrec r =>
    match findAllSt key r with
    | (occ, r2) => (occ, .vrec r2)
  | v => ([], v)
end

/-- Appending one extra node to an even-length list never changes the
conversion: the `zip` of the even and odd index ranges ignores it. -/
theorem convertF_dropLast (n : Nat) :
    ∀ (l : List Node) (x : Node) (acc : Record),
      l.length % 2 = 0 → convertF n (l ++ [x]) acc = convertF n l acc := by
  induction n with
  | zero => intro l x acc _; rfl
  | succ n ih =>
    intro l x acc h
    match l with
    | [] => rfl
    | [y] => simp at h
    | k :: v :: rest =>
      have hrest : rest.length % 2 = 0 := by
        simp only [List.length_cons] at h; omega
      cases v with
      | nlist sub =>
        simp only [List.cons_append, convertF]
        cases hsub : convertF n sub .nil with
        | none => rfl
        | some res =>
          cases res with
          | error e => rfl
          | ok r2 =>
            cases nodeKey k with
            | none => rfl
            | some key => exact ih rest x _ hrest
      | nint m =>
        simp only [List.cons_append, convertF]
        cases nodeKey k with
        | none => rfl
        | some key => exact ih rest x _ hrest
      | nstr s =>
        simp only [List.cons_append, convertF]
        cases nodeKey k with
        | none => rfl
        | some key => exact ih rest x _ hrest
      | nbool b =>
        simp only [List.cons_append, convertF]
        cases nodeKey k with
        | none => rfl
        | some key => exact ih rest x _ hrest

/-- Run-level form of the even-length drop property. -/
theorem convertGo_dropLast (l : List Node) (x : Node) (acc : Record)
    (h : l.length % 2 = 0) : convertGo (l ++ [x]) acc = convertGo l acc := by
  have h1 : convertF (nodeListSize (l ++ [x]) + 1) (l ++ [x]) acc =
      some (convertGo (l ++ [x]) acc) := (Option.some_get _).symm
  have h2 : convertF (nodeListSize (l ++ [x]) + 1) l acc =
      some (convertGo (l ++ [x]) acc) := by
    rw [← convertF_dropLast _ l x acc h]; exact h1
  exact (convertGo_eq h2).symm

/-- The state-passing `find` hands its record back unchanged (bounded-size
induction over the mutual record structure). -/
theorem findSt_snd_aux (n : Nat) :
    ∀ (key : NKey) (r : Record), sizeOf r ≤ n → (findSt key r).2 = r := by
  induction n with
  | zero =>
    intro key r h
    cases r with
    | nil => rfl
    | cons ky v rest => simp only [Record.cons.sizeOf_spec] at h; omega
  | succ n ih =>
    intro key r h
    cases r with
    | nil => rfl
    | cons ky v rest =>
      have hrest : sizeOf rest ≤ n := by
        simp only [Record.cons.sizeOf_spec] at h; omega
      simp only [findSt]
      split_ifs with hky
      · rfl
      · cases v with
        | vrec r' =>
          have hr' : sizeOf r' ≤ n := by
            simp only [Record.cons.sizeOf_spec, Value.vrec.sizeOf_spec] at h; omega
          simp only [findStV]
          rcases hfs : findSt key r' with ⟨res, r2⟩
          have h2 : r2 = r' := by
            have := ih key r' hr'
            rw [hfs] at this
            exact this
          subst h2
          rcases hrs : findSt key rest with ⟨res2, rest2⟩
          have h3 : rest2 = rest := by
            have := ih key rest hrest
            rw [hrs] at this
            exact this
          subst h3
          cases res with
          | none => simp
          | some x =>
            by_cases ht : pyTruthy x
            · simp [ht]
            · simp [ht, hrs]
        | vint m =>
          simp only [findStV]
          rcases hrs : findSt key rest with ⟨res2, rest2⟩
          have h3 : rest2 = rest := by
            have := ih key rest hrest
            rw [hrs] at this
            exact this
          subst h3
          simp
        | vstr s =>
          simp only [findStV]
          rcases hrs : findSt key rest with ⟨res2, rest2⟩
          have h3 : rest2 = rest := by
            have := ih key rest hrest
            rw [hrs] at this
            exact this
          subst h3
          simp
        | vbool b =>
          simp only [findStV]
          rcases hrs : findSt key rest with ⟨res2, rest2⟩
          have h3 : rest2 = rest := by
            have := ih key rest hrest
            rw [hrs] at this
            exact this
          subst h3
          simp

/-- The state-passing `findAll` hands its record back unchanged. -/
theorem findAllSt_snd_aux (n : Nat) :
    ∀ (key : NKey) (r : Record), sizeOf r ≤ n → (findAllSt key r).2 = r := by
  induction n with
  | zero =>
    intro key r h
    cases r with
    | nil => rfl
    | cons ky v rest => simp only [Record.cons.sizeOf_spec] at h; omega
  | succ n ih =>
    intro key r h
    cases r with
    | nil => rfl
    | cons ky v rest =>
      have hrest : sizeOf rest ≤ n := by
        simp only [Record.cons.sizeOf_spec] at h; omega
      simp only [findAllSt]
      rcases hrs : findAllSt key rest with ⟨occ2, rest2⟩
      have h3 : rest2 = rest := by
        have := ih key rest hrest
        rw [hrs] at this
        exact this
      subst h3
      cases v with
      | vrec r' =>
        have hr' : sizeOf r' ≤ n := by
          simp only [Record.cons.sizeOf_spec, Value.vrec.sizeOf_spec] at h; omega
        simp only [findAllStV]
        rcases hfs : findAllSt key r' with ⟨occ1, r2⟩
        have h2 : r2 = r' := by
          have := ih key r' hr'
          rw [hfs] at this
          exact this
        subst h2
        simp
      | vint m => simp [findAllStV]
      | vstr s => simp [findAllStV]
      | vbool b => simp [findAllStV]

/-- When every occurrence `findAll` would collect is truthy, `find` agrees
with the head of `findAll`: the `if res:` filter never discards anything. -/
theorem find_head_aux (n : Nat) :
    ∀ (key : NKey) (r : Record), sizeOf r ≤ n →
      (∀ v ∈ findAll key r, pyTruthy v = true) → find key r = (findAll key r).head? := by
  induction n with
  | zero =>
    intro key r h ht
    cases r with
    | nil => rfl
    | cons ky v rest => simp only [Record.cons.sizeOf_spec] at h; omega
  | succ n ih =>
    intro key r h ht
    cases r with
    | nil => rfl
    | cons ky v rest =>
      have hrest : sizeOf rest ≤ n := by
        simp only [Record.cons.sizeOf_spec] at h; omega
      by_cases hky : pyEqK ky key
      · simp [find, findAll, hky]
      · have htr : ∀ w ∈ findAll key rest, pyTruthy w = true := by
          intro w hw
          exact ht w (by simp [findAll, hky]; exact Or.inr hw)
        cases v with
        | vrec r' =>
          have hr' : sizeOf r' ≤ n := by
            simp only [Record.cons.sizeOf_spec, Value.vrec.sizeOf_spec] at h; omega
          have ht' : ∀ w ∈ findAll key r', pyTruthy w = true := by
            intro w hw
            exact ht w (by simp [findAll, findAllV, hky]; exact Or.inl hw)
          have e1 := ih key r' hr' ht'
          simp only [find, findV, hky, if_false]
          cases hfa : findAll key r' with
          | nil =>
            rw [hfa] at e1
            rw [e1]
            simp only [List.head?]
            simp only [findAll, findAllV, hky, if_neg hky, hfa, List.nil_append,
              List.append_nil]
            exact ih key rest hrest htr
          | cons x xs =>
            rw [hfa] at e1
            rw [e1]
            have hx : pyTruthy x = true := ht' x (by simp [hfa])
            simp only [List.head?, hx, if_true]
            simp [findAll, findAllV, hky, hfa]
        | vint m =>
          simp only [find, findV, hky, if_false]
          simp only [findAll, findAllV, hky, if_neg hky, List.nil_append]
          exact ih key rest hrest htr
        | vstr s =>
          simp only [find, findV, hky, if_false]
          simp only [findAll, findAllV, hky, if_neg hky, List.nil_append]
          exact ih key rest hrest htr
        | vbool b =>
          simp only [find, findV, hky, if_false]
          simp only [findAll, findAllV, hky, if_neg hky, List.nil_append]
          exact ih key rest hrest htr

/-- C1: the claim says the decoder maps digit 0 to `false` and digit 1 to
`true`.  The code instead computes `bool(value)` on the digit STRING, so the
token `b:0;` also decodes to `true`: decoding the line `a:2:{s:1:"k";b:0;}`
yields the record mapping "k" to TRUE, exactly as for `b:1;`.  This
evaluates the code at the claim's failing input. -/
theorem c1_bool_digit_truthy :
    decode ['a', ':', '2', ':', '{', 's', ':', '1', ':', '"', 'k', '"', ';',
            'b', ':', '0', ';', '}'] =
        .ok (.cons (.kstr ['k']) (.vbool true) .nil) ∧
    decode ['a', ':', '2', ':', '{', 's', ':', '1', ':', '"', 'k', '"', ';',
            'b', ':', '1', ';', '}'] =
        .ok (.cons (.kstr ['k']) (.vbool true) .nil) :=
  ⟨rfl, rfl⟩

/-- C2 counterexample: decoding `a:1:{i:1` (array opened, buffer exhausted
before the closing brace) does NOT fail: it succeeds with the empty record. -/
theorem c2_counterexample :
    decode ['a', ':', '1', ':', '{', 'i', ':', '1'] = .ok .nil ∧
    (decode ['a', ':', '1', ':', '{', 'i', ':', '1']).isOk = true :=
  ⟨rfl, rfl⟩

/-- C2 amended: when the buffer is exhausted while an array is still open,
the builder's while-loop simply ends and returns the current (partial) list
without raising anything — at any nesting level an empty buffer yields a
normal return; in particular `a:1:{i:1` decodes to the empty record. -/
theorem c2_exhausted_open_array_returns :
    (∀ acc : List Node, nestLevelRun [] acc = .ok (acc, [])) ∧
    decode ['a', ':', '1', ':', '{', 'i', ':', '1'] = .ok .nil :=
  ⟨nestLevelRun_nil, rfl⟩

/-- C3 counterexample: in the record mapping "a" to the nested record
mapping "b" to 0, and "c" to the nested record mapping "b" to 5, `find` skips
the falsy nested hit 0 (`if res:`) and returns 5, while `findAll` collects
0 first — so `find` disagrees with the head of `findAll`. -/
theorem c3_counterexample :
    find (.kstr ['b'])
        (.cons (.kstr ['a']) (.vrec (.cons (.kstr ['b']) (.vint 0) .nil))
          (.cons (.kstr ['c']) (.vrec (.cons (.kstr ['b']) (.vint 5) .nil)) .nil)) =
      some (.vint 5) ∧
    findAll (.kstr ['b'])
        (.cons (.kstr ['a']) (.vrec (.cons (.kstr ['b']) (.vint 0) .nil))
          (.cons (.kstr ['c']) (.vrec (.cons (.kstr ['b']) (.vint 5) .nil)) .nil)) =
      [.vint 0, .vint 5] ∧
    find (.kstr ['b'])
        (.cons (.kstr ['a']) (.vrec (.cons (.kstr ['b']) (.vint 0) .nil))
          (.cons (.kstr ['c']) (.vrec (.cons (.kstr ['b']) (.vint 5) .nil)) .nil)) ≠
      (findAll (.kstr ['b'])
        (.cons (.kstr ['a']) (.vrec (.cons (.kstr ['b']) (.vint 0) .nil))
          (.cons (.kstr ['c']) (.vrec (.cons (.kstr ['b']) (.vint 5) .nil)) .nil))).head? := by
  refine ⟨rfl, rfl, ?_⟩
  intro h
  have h2 : some (Value.vint 5) = some (Value.vint 0) := h
  injection h2 with h3
  injection h3 with h4
  exact absurd h4 (by decide)

/-- C3 amended: `find` returns nothing iff `findAll` is empty, and otherwise
equals the first element of `findAll`, PROVIDED every occurrence `findAll`
collects is Python-truthy; without that proviso the `if res:` check of
`find` skips falsy nested results (see the counterexample). -/
theorem c3_find_findAll_agree (key : NKey) (r : Record)
    (h : ∀ v ∈ findAll key r, pyTruthy v = true) :
    find key r = (findAll key r).head? :=
  find_head_aux (sizeOf r) key r le_rfl h

/-- C3 witness: on the record mapping "a" to the nested record mapping "b"
to 5, the truthiness hypothesis holds and the agreement follows. -/
theorem c3_witness :
    (∀ v ∈ findAll (.kstr ['b'])
        (.cons (.kstr ['a']) (.vrec (.cons (.kstr ['b']) (.vint 5) .nil)) .nil),
      pyTruthy v = true) ∧
    find (.kstr ['b'])
        (.cons (.kstr ['a']) (.vrec (.cons (.kstr ['b']) (.vint 5) .nil)) .nil) =
      (findAll (.kstr ['b'])
        (.cons (.kstr ['a']) (.vrec (.cons (.kstr ['b']) (.vint 5) .nil)) .nil)).head? := by
  refine ⟨?_, ?_⟩
  · intro v hv
    have : findAll (NKey.kstr ['b'])
        (.cons (.kstr ['a']) (.vrec (.cons (.kstr ['b']) (.vint 5) .nil)) .nil) =
        [Value.vint 5] := rfl
    rw [this] at hv
    simp at hv
    subst hv
    rfl
  · exact c3_find_findAll_agree _ _ (by
      intro v hv
      have : findAll (NKey.kstr ['b'])
          (.cons (.kstr ['a']) (.vrec (.cons (.kstr ['b']) (.vint 5) .nil)) .nil) =
          [Value.vint 5] := rfl
      rw [this] at hv
      simp at hv
      subst hv
      rfl)

/-- C4 counterexample: on `a:0:{}i:5;` the Builder's top-level list has TWO
elements, yet decoding does not fail with any error — the Facade indexes
element 0 and silently ignores the rest. -/
theorem c4_counterexample :
    builderOut ['a', ':', '0', ':', '{', '}', 'i', ':', '5', ';'] =
      .ok ([.nlist [], .nint 5], []) ∧
    decode ['a', ':', '0', ':', '{', '}', 'i', ':', '5', ';'] = .ok .nil ∧
    (decode ['a', ':', '0', ':', '{', '}', 'i', ':', '5', ';']).isOk = true :=
  ⟨rfl, rfl, rfl⟩

/-- C4 amended: the Facade performs no cardinality check at all —
`convert(nestLevel()[0])` depends only on the FIRST element of the Builder's
list (two inputs whose builder outcomes agree on that element decode
identically, extra elements being ignored), and an EMPTY top-level list
raises `IndexError` (not the scanner's `InvalidArrayFormat`). -/
theorem c4_first_element_only :
    (∀ s1 s2 : List Char,
      (builderOut s1).map (fun p => p.1.head?) = (builderOut s2).map (fun p => p.1.head?) →
        decode s1 = decode s2) ∧
    (∀ (s r : List Char), builderOut s = .ok ([], r) → decode s = .error .indexError) := by
  constructor
  · intro s1 s2 h
    unfold decode
    cases hb1 : builderOut s1 with
    | error e1 =>
      cases hb2 : builderOut s2 with
      | error e2 =>
        rw [hb1, hb2] at h
        simp only [Except.map, Except.error.injEq] at h
        rw [h]
      | ok p2 =>
        rw [hb1, hb2] at h
        simp [Except.map] at h
    | ok p1 =>
      cases hb2 : builderOut s2 with
      | error e2 =>
        rw [hb1, hb2] at h
        simp [Except.map] at h
      | ok p2 =>
        obtain ⟨l1, r1⟩ := p1
        obtain ⟨l2, r2⟩ := p2
        rw [hb1, hb2] at h
        simp only [Except.map, Except.ok.injEq] at h
        show (match l1.head? with
              | none => Except.error PyErr.indexError
              | some nd => convertTop nd) =
            match l2.head? with
            | none => Except.error PyErr.indexError
            | some nd => convertTop nd
        rw [h]
  · intro s r hb
    unfold decode
    rw [hb]
    rfl

/-- C4 witness: the two-element input of the counterexample decodes exactly
as its one-element prefix (same first builder element), and the empty line,
whose builder list is empty, raises `IndexError`. -/
theorem c4_witness :
    decode ['a', ':', '0', ':', '{', '}', 'i', ':', '5', ';'] =
      decode ['a', ':', '0', ':', '{', '}'] ∧
    decode [] = .error .indexError :=
  ⟨c4_first_element_only.1 _ _ rfl, c4_first_element_only.2 [] [] rfl⟩

/-- C5: a trailing unmatched element of the pair-fold is silently dropped —
appending one node to an even-length list leaves the conversion (success or
failure) unchanged — and decoding the one-element root array `a:1:{i:42;}`
yields the empty record. -/
theorem c5_odd_length_drop :
    (∀ (l : List Node) (x : Node) (acc : Record),
      l.length % 2 = 0 → convertGo (l ++ [x]) acc = convertGo l acc) ∧
    decode ['a', ':', '1', ':', '{', 'i', ':', '4', '2', ';', '}'] = .ok .nil :=
  ⟨convertGo_dropLast, rfl⟩

/-- C5 witness: dropping the ninth trailing node from a concrete three-node
list leaves the conversion of the first two. -/
theorem c5_witness :
    ([Node.nint 1, Node.nint 2] : List Node).length % 2 = 0 ∧
    convertGo ([Node.nint 1, Node.nint 2] ++ [Node.nint 9]) .nil =
      convertGo [Node.nint 1, Node.nint 2] .nil :=
  ⟨rfl, c5_odd_length_drop.1 _ _ _ rfl⟩

/-- C6: whenever the anchored lexer matches nothing at the front of a
nonempty remaining buffer, the builder raises `InvalidArrayFormat` (the
spec's `MalformedToken`) carrying that buffer; in particular `x:1;`, whose
tag `x` belongs to no token grammar, fails exactly that way. -/
theorem c6_unrecognized_tag_fails :
    (∀ (c : Char) (cs : List Char) (acc : List Node), tokM (c :: cs) = none →
      nestLevelRun (c :: cs) acc = .error (.invalidArrayFormat (c :: cs))) ∧
    decode ['x', ':', '1', ';'] = .error (.invalidArrayFormat ['x', ':', '1', ';']) :=
  ⟨fun _ _ acc h => nestLevelRun_noMatch acc h, rfl⟩

/-- C6 witness: the lexer indeed rejects the front of `x:1;`, and the
builder fails on it as the theorem states. -/
theorem c6_witness :
    tokM ['x', ':', '1', ';'] = none ∧
    nestLevelRun ['x', ':', '1', ';'] [] =
      .error (.invalidArrayFormat ['x', ':', '1', ';']) :=
  ⟨rfl, c6_unrecognized_tag_fails.1 _ _ [] rfl⟩

/-- C8: both lookups are pure — the state-passing embeddings of `find` and
`findAll` return the record (including all nested records) unchanged. -/
theorem c8_lookups_pure (key : NKey) (r : Record) :
    (findSt key r).2 = r ∧ (findAllSt key r).2 = r :=
  ⟨findSt_snd_aux (sizeOf r) key r le_rfl, findAllSt_snd_aux (sizeOf r) key r le_rfl⟩

/-- C9: every span `re.search` reports for the lexer starts at offset 0 of
the remaining buffer (each alternative is `^`-anchored), and its end is the
front-token match length — so the consumed prefix `keyData[:end]` is exactly
the matched token, and the scanner never skips bytes. -/
theorem c9_matches_anchored (s : List Char) (st en : Nat)
    (h : lexSearch s = some (st, en)) : st = 0 ∧ tokM s = some en :=
  lexSearch_some h

/-- C9 witness: on `i:1;` the search reports span (0, 4). -/
theorem c9_witness :
    lexSearch ['i', ':', '1', ';'] = some (0, 4) ∧
    (0 = 0 ∧ tokM ['i', ':', '1', ';'] = some 4) :=
  ⟨rfl, c9_matches_anchored _ 0 4 rfl⟩

/-- A digit run stops exactly at the first non-digit. -/
theorem countDigits_append_digits {d : List Char} (hd : d.all Char.isDigit = true)
    {c : Char} (hc : c.isDigit = false) (tl : List Char) :
    countDigits (d ++ c :: tl) = d.length := by
  induction d with
  | nil => simp [countDigits, hc]
  | cons x xs ih =>
    simp only [List.all_cons, Bool.and_eq_true] at hd
    simp [countDigits, hd.1, ih hd.2]

/-- The exact text of an array-open token `a:<digits>:{`. -/
def arrTok (d : List Char) : List Char :=
  'a' :: ':' :: (d ++ [':', '{'])

/-- Shape of an array-open token followed by more input. -/
theorem arrTok_append (d s : List Char) :
    arrTok d ++ s = 'a' :: ':' :: (d ++ ':' :: '{' :: s) := by
  simp [arrTok]

/-- Length of an array-open token. -/
theorem arrTok_length (d : List Char) : (arrTok d).length = d.length + 4 := by
  simp [arrTok]

/-- The lexer accepts an array-open token at the front of any buffer,
whatever its digit text is: the count only contributes its length. -/
theorem tokM_arrTok {d : List Char} (hd : d.all Char.isDigit = true) (he : d ≠ [])
    (s : List Char) : tokM (arrTok d ++ s) = some (arrTok d).length := by
  have hcd : countDigits (d ++ ':' :: '{' :: s) = d.length :=
    countDigits_append_digits hd (by decide) _
  have hlen : d.length ≠ 0 := fun h => he (List.eq_nil_of_length_eq_zero h)
  rw [arrTok_append]
  have h1 : matchInteger ('a' :: ':' :: (d ++ ':' :: '{' :: s)) = none := by
    simp [matchInteger]
  have h2 : matchString ('a' :: ':' :: (d ++ ':' :: '{' :: s)) = none := by
    simp [matchString]
  have h3 : matchArray ('a' :: ':' :: (d ++ ':' :: '{' :: s)) = some (2 + d.length + 2) := by
    simp only [matchArray, hcd]
    rw [if_pos ⟨trivial, trivial⟩, if_neg hlen]
    rw [show (d ++ ':' :: '{' :: s).drop d.length = ':' :: '{' :: s from List.drop_left d _]
    simp
  unfold tokM
  rw [h1, h2, h3, arrTok_length]
  exact congrArg some (by omega)

/-- Stripping and dispatching an array-open token always enters a nested
level: the token ends in a brace (no semicolon to strip) and starts with the
letter `a`. -/
theorem stepOf_arrTok (d : List Char) : stepOf (stripSemi (arrTok d)) = .enter := by
  have hshape : arrTok d = ('a' :: ':' :: (d ++ [':'])) ++ ['{'] := by simp [arrTok]
  have hlast : (arrTok d).getLast? = some '{' := by
    rw [hshape, List.getLast?_concat]
  unfold stripSemi
  rw [hlast]
  simp [stepOf, arrTok]

/-- Count-equivalence: two buffers that tokenize identically except for the
digit texts inside their array-open tokens.  `tok` consumes one identical
token from both sides (its span certified by the lexer on each respective
buffer); `arr` consumes an array-open token whose counts may differ. -/
inductive CEq : List Char → List Char → Prop where
  | nil : CEq [] []
  | tok (t s₁ s₂ : List Char) (h₁ : tokM (t ++ s₁) = some t.length)
      (h₂ : tokM (t ++ s₂) = some t.length) (hs : CEq s₁ s₂) :
      CEq (t ++ s₁) (t ++ s₂)
  | arr (d₁ d₂ s₁ s₂ : List Char) (hd₁ : d₁.all Char.isDigit = true) (he₁ : d₁ ≠ [])
      (hd₂ : d₂.all Char.isDigit = true) (he₂ : d₂ ≠ []) (hs : CEq s₁ s₂) :
      CEq (arrTok d₁ ++ s₁) (arrTok d₂ ++ s₂)

/-- Shape-general form of `nestLevelRun_fail`. -/
theorem nestLevelRun_fail' {s : List Char} {en : Nat} {e : PyErr} (hne : s ≠ [])
    (acc : List Node) (h : tokM s = some en)
    (hstep : stepOf (stripSemi (s.take en)) = .fail e) :
    nestLevelRun s acc = .error e := by
  obtain ⟨c, cs, rfl⟩ := List.exists_cons_of_ne_nil hne
  exact nestLevelRun_fail acc h hstep

/-- Shape-general form of `nestLevelRun_push`. -/
theorem nestLevelRun_push' {s : List Char} {en : Nat} {nd : Node} (hne : s ≠ [])
    (acc : List Node) (h : tokM s = some en)
    (hstep : stepOf (stripSemi (s.take en)) = .push nd) :
    nestLevelRun s acc = nestLevelRun (s.drop en) (acc ++ [nd]) := by
  obtain ⟨c, cs, rfl⟩ := List.exists_cons_of_ne_nil hne
  exact nestLevelRun_push acc h hstep

/-- Shape-general form of `nestLevelRun_skip`. -/
theorem nestLevelRun_skip' {s : List Char} {en : Nat} (hne : s ≠ [])
    (acc : List Node) (h : tokM s = some en)
    (hstep : stepOf (stripSemi (s.take en)) = .skip) :
    nestLevelRun s acc = nestLevelRun (s.drop en) acc := by
  obtain ⟨c, cs, rfl⟩ := List.exists_cons_of_ne_nil hne
  exact nestLevelRun_skip acc h hstep

/-- Shape-general form of `nestLevelRun_exit`. -/
theorem nestLevelRun_exit' {s : List Char} {en : Nat} (hne : s ≠ [])
    (acc : List Node) (h : tokM s = some en)
    (hstep : stepOf (stripSemi (s.take en)) = .exit) :
    nestLevelRun s acc = .ok (acc, s.drop en) := by
  obtain ⟨c, cs, rfl⟩ := List.exists_cons_of_ne_nil hne
  exact nestLevelRun_exit acc h hstep

/-- Shape-general form of `nestLevelRun_enter`. -/
theorem nestLevelRun_enter' {s : List Char} {en : Nat} (hne : s ≠ [])
    (acc : List Node) (h : tokM s = some en)
    (hstep : stepOf (stripSemi (s.take en)) = .enter) :
    nestLevelRun s acc =
      match nestLevelRun (s.drop en) [] with
      | .error e => .error e
      | .ok (child, r2) => nestLevelRun r2 (acc ++ [.nlist child]) := by
  obtain ⟨c, cs, rfl⟩ := List.exists_cons_of_ne_nil hne
  exact nestLevelRun_enter acc h hstep

/-- Simulation along count-equivalence: two count-equivalent buffers drive
the builder identically — same error, or same node list with
count-equivalent leftovers. -/
theorem ceq_run_aux (n : Nat) :
    ∀ (s₁ s₂ : List Char), s₁.length ≤ n → CEq s₁ s₂ → ∀ acc : List Node,
      (∃ e, nestLevelRun s₁ acc = .error e ∧ nestLevelRun s₂ acc = .error e) ∨
      (∃ l r₁ r₂, nestLevelRun s₁ acc = .ok (l, r₁) ∧ nestLevelRun s₂ acc = .ok (l, r₂) ∧
        CEq r₁ r₂) := by
  induction n using Nat.strong_induction_on with
  | _ n ih =>
    intro s₁ s₂ hlen hceq acc
    cases hceq with
    | nil =>
      right
      exact ⟨acc, [], [], nestLevelRun_nil acc, nestLevelRun_nil acc, CEq.nil⟩
    | tok t u₁ u₂ h₁ h₂ hs =>
      have htpos : 0 < t.length := tokM_pos h₁
      have htne : t ≠ [] := by
        intro h
        rw [h] at htpos
        simp at htpos
      have hne₁ : t ++ u₁ ≠ [] := fun hc => htne (List.append_eq_nil.mp hc).1
      have hne₂ : t ++ u₂ ≠ [] := fun hc => htne (List.append_eq_nil.mp hc).1
      have htake₁ : (t ++ u₁).take t.length = t := List.take_left t u₁
      have htake₂ : (t ++ u₂).take t.length = t := List.take_left t u₂
      have hdrop₁ : (t ++ u₁).drop t.length = u₁ := List.drop_left t u₁
      have hdrop₂ : (t ++ u₂).drop t.length = u₂ := List.drop_left t u₂
      have hult : u₁.length < n := by
        have hla : (t ++ u₁).length = t.length + u₁.length := List.length_append t u₁
        omega
      cases hstep : stepOf (stripSemi t) with
      | fail e =>
        left
        exact ⟨e, nestLevelRun_fail' hne₁ acc h₁ (by rw [htake₁]; exact hstep),
          nestLevelRun_fail' hne₂ acc h₂ (by rw [htake₂]; exact hstep)⟩
      | push nd =>
        have e₁ := nestLevelRun_push' hne₁ acc h₁ (by rw [htake₁]; exact hstep)
        have e₂ := nestLevelRun_push' hne₂ acc h₂ (by rw [htake₂]; exact hstep)
        rw [hdrop₁] at e₁
        rw [hdrop₂] at e₂
        rcases ih u₁.length hult u₁ u₂ le_rfl hs (acc ++ [nd]) with
          ⟨e, p₁, p₂⟩ | ⟨l, r₁, r₂, p₁, p₂, pc⟩
        · left; exact ⟨e, by rw [e₁]; exact p₁, by rw [e₂]; exact p₂⟩
        · right; exact ⟨l, r₁, r₂, by rw [e₁]; exact p₁, by rw [e₂]; exact p₂, pc⟩
      | skip =>
        have e₁ := nestLevelRun_skip' hne₁ acc h₁ (by rw [htake₁]; exact hstep)
        have e₂ := nestLevelRun_skip' hne₂ acc h₂ (by rw [htake₂]; exact hstep)
        rw [hdrop₁] at e₁
        rw [hdrop₂] at e₂
        rcases ih u₁.length hult u₁ u₂ le_rfl hs acc with
          ⟨e, p₁, p₂⟩ | ⟨l, r₁, r₂, p₁, p₂, pc⟩
        · left; exact ⟨e, by rw [e₁]; exact p₁, by rw [e₂]; exact p₂⟩
        · right; exact ⟨l, r₁, r₂, by rw [e₁]; exact p₁, by rw [e₂]; exact p₂, pc⟩
      | exit =>
        have e₁ := nestLevelRun_exit' hne₁ acc h₁ (by rw [htake₁]; exact hstep)
        have e₂ := nestLevelRun_exit' hne₂ acc h₂ (by rw [htake₂]; exact hstep)
        rw [hdrop₁] at e₁
        rw [hdrop₂] at e₂
        right
        exact ⟨acc, u₁, u₂, e₁, e₂, hs⟩
      | enter =>
        have e₁ := nestLevelRun_enter' hne₁ acc h₁ (by rw [htake₁]; exact hstep)
        have e₂ := nestLevelRun_enter' hne₂ acc h₂ (by rw [htake₂]; exact hstep)
        rw [hdrop₁] at e₁
        rw [hdrop₂] at e₂
        rcases ih u₁.length hult u₁ u₂ le_rfl hs [] with
          ⟨e, p₁, p₂⟩ | ⟨child, r₁, r₂, p₁, p₂, pc⟩
        · left
          refine ⟨e, ?_, ?_⟩
          · rw [e₁, p₁]
          · rw [e₂, p₂]
        · have hr₁ : r₁.length < n := lt_of_le_of_lt (nestLevelRun_rest p₁) hult
          rcases ih r₁.length hr₁ r₁ r₂ le_rfl pc (acc ++ [Node.nlist child]) with
            ⟨e, q₁, q₂⟩ | ⟨l, w₁, w₂, q₁, q₂, qc⟩
          · left; exact ⟨e, by rw [e₁, p₁]; exact q₁, by rw [e₂, p₂]; exact q₂⟩
          · right; exact ⟨l, w₁, w₂, by rw [e₁, p₁]; exact q₁, by rw [e₂, p₂]; exact q₂, qc⟩
    | arr d₁ d₂ u₁ u₂ hd₁ he₁ hd₂ he₂ hs =>
      have hT₁ := tokM_arrTok hd₁ he₁ u₁
      have hT₂ := tokM_arrTok hd₂ he₂ u₂
      have hne₁ : arrTok d₁ ++ u₁ ≠ [] := by simp [arrTok]
      have hne₂ : arrTok d₂ ++ u₂ ≠ [] := by simp [arrTok]
      have htake₁ : (arrTok d₁ ++ u₁).take (arrTok d₁).length = arrTok d₁ :=
        List.take_left _ u₁
      have htake₂ : (arrTok d₂ ++ u₂).take (arrTok d₂).length = arrTok d₂ :=
        List.take_left _ u₂
      have hdrop₁ : (arrTok d₁ ++ u₁).drop (arrTok d₁).length = u₁ := List.drop_left _ u₁
      have hdrop₂ : (arrTok d₂ ++ u₂).drop (arrTok d₂).length = u₂ := List.drop_left _ u₂
      have hult : u₁.length < n := by
        have hla : (arrTok d₁ ++ u₁).length = (arrTok d₁).length + u₁.length :=
          List.length_append _ _
        have h4 := arrTok_length d₁
        omega
      have e₁ := nestLevelRun_enter' hne₁ acc hT₁ (by rw [htake₁]; exact stepOf_arrTok d₁)
      have e₂ := nestLevelRun_enter' hne₂ acc hT₂ (by rw [htake₂]; exact stepOf_arrTok d₂)
      rw [hdrop₁] at e₁
      rw [hdrop₂] at e₂
      rcases ih u₁.length hult u₁ u₂ le_rfl hs [] with
        ⟨e, p₁, p₂⟩ | ⟨child, r₁, r₂, p₁, p₂, pc⟩
      · left
        refine ⟨e, ?_, ?_⟩
        · rw [e₁, p₁]
        · rw [e₂, p₂]
      · have hr₁ : r₁.length < n := lt_of_le_of_lt (nestLevelRun_rest p₁) hult
        rcases ih r₁.length hr₁ r₁ r₂ le_rfl pc (acc ++ [Node.nlist child]) with
          ⟨e, q₁, q₂⟩ | ⟨l, w₁, w₂, q₁, q₂, qc⟩
        · left; exact ⟨e, by rw [e₁, p₁]; exact q₁, by rw [e₂, p₂]; exact q₂⟩
        · right; exact ⟨l, w₁, w₂, by rw [e₁, p₁]; exact q₁, by rw [e₂, p₂]; exact q₂, qc⟩

/-- C7: the declared element count of an array-open tag is never checked —
any two inputs that tokenize identically except for the digit texts inside
their array-open tokens decode to the very same result (record or error):
only the closing brace terminates an array. -/
theorem c7_counts_ignored (s₁ s₂ : List Char) (h : CEq s₁ s₂) :
    decode s₁ = decode s₂ := by
  rcases ceq_run_aux s₁.length s₁ s₂ le_rfl h [] with
    ⟨e, p₁, p₂⟩ | ⟨l, r₁, r₂, p₁, p₂, pc⟩
  · unfold decode builderOut
    rw [p₁, p₂]
  · unfold decode builderOut
    rw [p₁, p₂]

/-- C7 witness: `a:2:{i:7;i:8;}` and `a:99:{i:7;i:8;}` differ only in the
declared count and decode to the same record mapping 7 to 8. -/
theorem c7_witness :
    decode ['a', ':', '2', ':', '{', 'i', ':', '7', ';', 'i', ':', '8', ';', '}'] =
      decode ['a', ':', '9', '9', ':', '{', 'i', ':', '7', ';', 'i', ':', '8', ';', '}'] ∧
    decode ['a', ':', '2', ':', '{', 'i', ':', '7', ';', 'i', ':', '8', ';', '}'] =
      .ok (.cons (.kint 7) (.vint 8) .nil) := by
  constructor
  · exact c7_counts_ignored _ _
      (CEq.arr ['2'] ['9', '9']
        ['i', ':', '7', ';', 'i', ':', '8', ';', '}']
        ['i', ':', '7', ';', 'i', ':', '8', ';', '}']
        rfl (by decide) rfl (by decide)
        (CEq.tok ['i', ':', '7', ';'] ['i', ':', '8', ';', '}'] ['i', ':', '8', ';', '}']
          rfl rfl
          (CEq.tok ['i', ':', '8', ';'] ['}'] ['}'] rfl rfl
            (CEq.tok ['}'] [] [] rfl rfl CEq.nil))))
  · rfl

/-- A digit run never exceeds the buffer. -/
theorem countDigits_le_length (l : List Char) : countDigits l ≤ l.length := by
  induction l with
  | nil => simp [countDigits]
  | cons c cs ih =>
    simp only [countDigits, List.length_cons]
    split_ifs <;> omega

/-- A digit run that stops inside the buffer is unchanged by appending. -/
theorem countDigits_append_of_lt {l : List Char} {k : Nat} (h : countDigits l = k)
    (hk : k < l.length) (ext : List Char) : countDigits (l ++ ext) = k := by
  induction l generalizing k with
  | nil => simp at hk
  | cons c cs ih =>
    simp only [countDigits, List.length_cons] at h hk ⊢
    split_ifs at h ⊢ with hc
    · have hcs : countDigits cs = k - 1 := by omega
      have hcs' := ih hcs (by omega)
      show countDigits (cs ++ ext) + 1 = k
      omega
    · exact h

/-- A no-quote run that stops inside the buffer is unchanged by appending. -/
theorem countNotQuote_append_of_lt {l : List Char} {k : Nat} (h : countNotQuote l = k)
    (hk : k < l.length) (ext : List Char) : countNotQuote (l ++ ext) = k := by
  induction l generalizing k with
  | nil => simp at hk
  | cons c cs ih =>
    simp only [countNotQuote, List.length_cons] at h hk ⊢
    split_ifs at h ⊢ with hc
    · exact h
    · have hcs : countNotQuote cs = k - 1 := by omega
      have hcs' := ih hcs (by omega)
      show countNotQuote (cs ++ ext) + 1 = k
      omega

/-- The head of an append is the head of its nonempty left part. -/
theorem head?_append_of_ne_nil {a : List Char} (b : List Char) (h : a ≠ []) :
    (a ++ b).head? = a.head? := by
  cases a with
  | nil => exact absurd rfl h
  | cons x xs => rfl

/-- Reading one character strictly inside the buffer is append-invariant. -/
theorem drop_head?_append {l : List Char} {k : Nat} (hk : k < l.length) (ext : List Char) :
    ((l ++ ext).drop k).head? = (l.drop k).head? := by
  rw [List.drop_append_of_le_length (le_of_lt hk)]
  apply head?_append_of_ne_nil
  intro h
  have := congrArg List.length h
  simp only [List.length_drop, List.length_nil] at this
  omega

/-- The optional-semicolon check strictly inside the buffer is
append-invariant. -/
theorem semiExtra_drop_append {l : List Char} {k : Nat} (hk : k < l.length)
    (ext : List Char) : semiExtra ((l ++ ext).drop k) = semiExtra (l.drop k) := by
  unfold semiExtra
  rw [drop_head?_append hk]

/-- An integer match that ends strictly inside the buffer also matches, with
the same length, after appending. -/
theorem matchInteger_append {u : List Char} {k : Nat} (h : matchInteger u = some k)
    (hk : k < u.length) (ext : List Char) : matchInteger (u ++ ext) = some k := by
  rcases u with _ | ⟨c1, _ | ⟨c2, rest⟩⟩ <;> simp only [matchInteger] at h
  · exact Option.noConfusion h
  · exact Option.noConfusion h
  · split_ifs at h with h1 h2
    all_goals try exact Option.noConfusion h
    injection h with h3
    simp only [List.length_cons] at hk
    have hle := countDigits_le_length rest
    have hdlt : countDigits rest < rest.length := by
      rcases lt_or_eq_of_le hle with h' | h'
      · exact h'
      · exfalso
        have hdrop0 : rest.drop (countDigits rest) = [] := by
          rw [h']; simp
        rw [hdrop0] at h3
        simp [semiExtra] at h3
        omega
    have hc : countDigits (rest ++ ext) = countDigits rest :=
      countDigits_append_of_lt rfl hdlt ext
    simp only [List.cons_append, matchInteger]
    rw [if_pos h1, hc, if_neg h2, semiExtra_drop_append hdlt ext]
    exact congrArg some h3

/-- An array-open match also matches, with the same length, after appending. -/
theorem matchArray_append {u : List Char} {k : Nat} (h : matchArray u = some k)
    (ext : List Char) : matchArray (u ++ ext) = some k := by
  rcases u with _ | ⟨c1, _ | ⟨c2, rest⟩⟩ <;> simp only [matchArray] at h
  · exact Option.noConfusion h
  · exact Option.noConfusion h
  · split_ifs at h with h1 h2 h3
    all_goals try exact Option.noConfusion h
    injection h with h4
    obtain ⟨hcol, hbrace⟩ := h3
    have hdlt : countDigits rest < rest.length := by
      by_contra hge
      have hdrop0 : rest.drop (countDigits rest) = [] := by
        apply List.drop_eq_nil_of_le
        omega
      rw [hdrop0] at hcol
      exact Option.noConfusion hcol
    have hc : countDigits (rest ++ ext) = countDigits rest :=
      countDigits_append_of_lt rfl hdlt ext
    have hd1lt : countDigits rest + 1 < rest.length := by
      by_contra hge
      have hdrop1 : (rest.drop (countDigits rest)).drop 1 = [] := by
        rw [List.drop_drop]
        apply List.drop_eq_nil_of_le
        omega
      rw [hdrop1] at hbrace
      exact Option.noConfusion hbrace
    simp only [List.cons_append, matchArray]
    rw [if_pos h1, hc, if_neg h2, if_pos ?_]
    · exact congrArg some h4
    · constructor
      · rw [drop_head?_append hdlt ext]
        exact hcol
      · rw [List.drop_drop] at hbrace ⊢
        rw [drop_head?_append hd1lt ext]
        exact hbrace

/-- A string match that ends strictly inside the buffer also matches, with
the same length, after appending. -/
theorem matchString_append {u : List Char} {k : Nat} (h : matchString u = some k)
    (hk : k < u.length) (ext : List Char) : matchString (u ++ ext) = some k := by
  rcases u with _ | ⟨c1, _ | ⟨c2, rest⟩⟩ <;> simp only [matchString] at h
  · exact Option.noConfusion h
  · exact Option.noConfusion h
  · split_ifs at h with h1 h2 h3 h4
    all_goals try exact Option.noConfusion h
    injection h with h5
    obtain ⟨hcol, hquo⟩ := h3
    simp only [List.length_cons] at hk
    have hdlt : countDigits rest < rest.length := by
      by_contra hge
      have hnil : rest.drop (countDigits rest) = [] := List.drop_eq_nil_of_le (by omega)
      rw [hnil] at hcol
      exact Option.noConfusion hcol
    have hc : countDigits (rest ++ ext) = countDigits rest :=
      countDigits_append_of_lt rfl hdlt ext
    have hr1ne : rest.drop (countDigits rest) ≠ [] := by
      intro hh
      rw [hh] at hcol
      exact Option.noConfusion hcol
    have hr1pos : 0 < (rest.drop (countDigits rest)).length := List.length_pos.mpr hr1ne
    have hquo_ne : (rest.drop (countDigits rest)).drop 1 ≠ [] := by
      intro hh
      rw [hh] at hquo
      exact Option.noConfusion hquo
    have hr1len2 : 2 ≤ (rest.drop (countDigits rest)).length := by
      have hpos2 := List.length_pos.mpr hquo_ne
      simp only [List.length_drop] at hpos2 ⊢
      omega
    have hq4ne : ((rest.drop (countDigits rest)).drop 2).drop
        (countNotQuote ((rest.drop (countDigits rest)).drop 2)) ≠ [] := by
      intro hh
      rw [hh] at h4
      exact Option.noConfusion h4
    have hqlt : countNotQuote ((rest.drop (countDigits rest)).drop 2) <
        ((rest.drop (countDigits rest)).drop 2).length := by
      have hpos := List.length_pos.mpr hq4ne
      rw [List.length_drop] at hpos
      omega
    have hsemile : semiExtra (((rest.drop (countDigits rest)).drop 2).drop
        (countNotQuote ((rest.drop (countDigits rest)).drop 2) + 1)) ≤ 1 := by
      unfold semiExtra
      split_ifs <;> omega
    have hq1lt : countNotQuote ((rest.drop (countDigits rest)).drop 2) + 1 <
        ((rest.drop (countDigits rest)).drop 2).length := by
      have e1 : ((rest.drop (countDigits rest)).drop 2).length =
          rest.length - countDigits rest - 2 := by
        rw [List.length_drop, List.length_drop]
      omega
    simp only [List.cons_append, matchString]
    rw [if_pos h1, hc, if_neg h2]
    have hr1 : (rest ++ ext).drop (countDigits rest) = rest.drop (countDigits rest) ++ ext :=
      List.drop_append_of_le_length (le_of_lt hdlt)
    rw [hr1]
    rw [head?_append_of_ne_nil ext hr1ne]
    have hdrop1 : (rest.drop (countDigits rest) ++ ext).drop 1 =
        (rest.drop (countDigits rest)).drop 1 ++ ext :=
      List.drop_append_of_le_length (by omega)
    rw [hdrop1, head?_append_of_ne_nil ext hquo_ne]
    rw [if_pos ⟨hcol, hquo⟩]
    have hdrop2 : (rest.drop (countDigits rest) ++ ext).drop 2 =
        (rest.drop (countDigits rest)).drop 2 ++ ext :=
      List.drop_append_of_le_length hr1len2
    rw [hdrop2]
    have hcq : countNotQuote ((rest.drop (countDigits rest)).drop 2 ++ ext) =
        countNotQuote ((rest.drop (countDigits rest)).drop 2) :=
      countNotQuote_append_of_lt rfl hqlt ext
    rw [hcq]
    have hdropq : ((rest.drop (countDigits rest)).drop 2 ++ ext).drop
        (countNotQuote ((rest.drop (countDigits rest)).drop 2)) =
        ((rest.drop (countDigits rest)).drop 2).drop
          (countNotQuote ((rest.drop (countDigits rest)).drop 2)) ++ ext :=
      List.drop_append_of_le_length (le_of_lt hqlt)
    rw [hdropq, head?_append_of_ne_nil ext hq4ne]
    rw [if_pos h4]
    rw [semiExtra_drop_append hq1lt ext]
    exact congrArg some h5

/-- An array-close match also matches after appending. -/
theorem matchEnd_append {u : List Char} {k : Nat} (h : matchEnd u = some k)
    (ext : List Char) : matchEnd (u ++ ext) = some k := by
  unfold matchEnd at h ⊢
  split_ifs at h with h1
  have hne : u ≠ [] := by
    intro hh
    rw [hh] at h1
    exact Option.noConfusion h1
  rw [if_pos (by rw [head?_append_of_ne_nil ext hne]; exact h1)]
  exact h

/-- A boolean match that ends strictly inside the buffer also matches, with
the same length, after appending. -/
theorem matchBoolean_append {u : List Char} {k : Nat} (h : matchBoolean u = some k)
    (hk : k < u.length) (ext : List Char) : matchBoolean (u ++ ext) = some k := by
  rcases u with _ | ⟨c1, _ | ⟨c2, _ | ⟨c3, rest⟩⟩⟩ <;> simp only [matchBoolean] at h
  · exact Option.noConfusion h
  · exact Option.noConfusion h
  · exact Option.noConfusion h
  · split_ifs at h with h1
    all_goals try exact Option.noConfusion h
    injection h with h2
    simp only [List.length_cons] at hk
    have hrne : rest ≠ [] := by
      intro hh
      subst hh
      simp [semiExtra] at h2
      simp only [List.length_nil] at hk
      omega
    simp only [List.cons_append, matchBoolean]
    rw [if_pos h1]
    unfold semiExtra at h2 ⊢
    rw [head?_append_of_ne_nil ext hrne]
    exact congrArg some h2

/-- An integer match starts with the letter i. -/
theorem matchInteger_head {u : List Char} {k : Nat} (h : matchInteger u = some k) :
    u.head? = some 'i' := by
  rcases u with _ | ⟨c1, _ | ⟨c2, rest⟩⟩ <;> simp only [matchInteger] at h
  · exact Option.noConfusion h
  · exact Option.noConfusion h
  · split_ifs at h with h1
    all_goals try exact Option.noConfusion h
    simp [h1.1]

/-- A string match starts with the letter s. -/
theorem matchString_head {u : List Char} {k : Nat} (h : matchString u = some k) :
    u.head? = some 's' := by
  rcases u with _ | ⟨c1, _ | ⟨c2, rest⟩⟩ <;> simp only [matchString] at h
  · exact Option.noConfusion h
  · exact Option.noConfusion h
  · split_ifs at h with h1
    all_goals try exact Option.noConfusion h
    simp [h1.1]

/-- An array-open match starts with the letter a. -/
theorem matchArray_head {u : List Char} {k : Nat} (h : matchArray u = some k) :
    u.head? = some 'a' := by
  rcases u with _ | ⟨c1, _ | ⟨c2, rest⟩⟩ <;> simp only [matchArray] at h
  · exact Option.noConfusion h
  · exact Option.noConfusion h
  · split_ifs at h with h1
    all_goals try exact Option.noConfusion h
    simp [h1.1]

/-- An array-close match starts with the closing brace. -/
theorem matchEnd_head {u : List Char} {k : Nat} (h : matchEnd u = some k) :
    u.head? = some '}' := by
  unfold matchEnd at h
  split_ifs at h with h1
  exact h1

/-- A boolean match starts with the letter b. -/
theorem matchBoolean_head {u : List Char} {k : Nat} (h : matchBoolean u = some k) :
    u.head? = some 'b' := by
  rcases u with _ | ⟨c1, _ | ⟨c2, _ | ⟨c3, rest⟩⟩⟩ <;> simp only [matchBoolean] at h
  · exact Option.noConfusion h
  · exact Option.noConfusion h
  · exact Option.noConfusion h
  · split_ifs at h with h1
    all_goals try exact Option.noConfusion h
    simp [h1.1]

/-- A buffer not starting with i is no integer token. -/
theorem matchInteger_none_of_head {u : List Char} (h : u.head? ≠ some 'i') :
    matchInteger u = none := by
  rcases u with _ | ⟨c1, _ | ⟨c2, rest⟩⟩ <;> simp only [matchInteger]
  · have hc : c1 ≠ 'i' := by simp at h; exact h
    rw [if_neg (fun hand => hc hand.1)]

/-- A buffer not starting with s is no string token. -/
theorem matchString_none_of_head {u : List Char} (h : u.head? ≠ some 's') :
    matchString u = none := by
  rcases u with _ | ⟨c1, _ | ⟨c2, rest⟩⟩ <;> simp only [matchString]
  · have hc : c1 ≠ 's' := by simp at h; exact h
    rw [if_neg (fun hand => hc hand.1)]

/-- A buffer not starting with a is no array-open token. -/
theorem matchArray_none_of_head {u : List Char} (h : u.head? ≠ some 'a') :
    matchArray u = none := by
  rcases u with _ | ⟨c1, _ | ⟨c2, rest⟩⟩ <;> simp only [matchArray]
  · have hc : c1 ≠ 'a' := by simp at h; exact h
    rw [if_neg (fun hand => hc hand.1)]

/-- A buffer not starting with the closing brace is no array-close token. -/
theorem matchEnd_none_of_head {u : List Char} (h : u.head? ≠ some '}') :
    matchEnd u = none := by
  unfold matchEnd
  rw [if_neg h]

/-- The lexer's verdict at a token that ends strictly inside the buffer is
append-invariant: the same token with the same span is found. -/
theorem tokM_append {u : List Char} {k : Nat} (h : tokM u = some k) (hk : k < u.length)
    (ext : List Char) : tokM (u ++ ext) = some k := by
  have hune : u ≠ [] := by
    intro hh
    subst hh
    simp [tokM, matchInteger, matchString, matchArray, matchEnd, matchBoolean] at h
  unfold tokM at h ⊢
  cases hI : matchInteger u with
  | some kI =>
    rw [hI] at h
    injection h with h'
    subst h'
    rw [matchInteger_append hI hk ext]
  | none =>
    rw [hI] at h
    cases hS : matchString u with
    | some kS =>
      rw [hS] at h
      injection h with h'
      subst h'
      have hh := matchString_head hS
      have hI' : matchInteger (u ++ ext) = none :=
        matchInteger_none_of_head (by rw [head?_append_of_ne_nil ext hune, hh]; simp)
      rw [hI', matchString_append hS hk ext]
    | none =>
      rw [hS] at h
      cases hA : matchArray u with
      | some kA =>
        rw [hA] at h
        injection h with h'
        subst h'
        have hh := matchArray_head hA
        have hI' : matchInteger (u ++ ext) = none :=
          matchInteger_none_of_head (by rw [head?_append_of_ne_nil ext hune, hh]; simp)
        have hS' : matchString (u ++ ext) = none :=
          matchString_none_of_head (by rw [head?_append_of_ne_nil ext hune, hh]; simp)
        rw [hI', hS', matchArray_append hA ext]
      | none =>
        rw [hA] at h
        cases hE : matchEnd u with
        | some kE =>
          rw [hE] at h
          injection h with h'
          subst h'
          have hh := matchEnd_head hE
          have hI' : matchInteger (u ++ ext) = none :=
            matchInteger_none_of_head (by rw [head?_append_of_ne_nil ext hune, hh]; simp)
          have hS' : matchString (u ++ ext) = none :=
            matchString_none_of_head (by rw [head?_append_of_ne_nil ext hune, hh]; simp)
          have hA' : matchArray (u ++ ext) = none :=
            matchArray_none_of_head (by rw [head?_append_of_ne_nil ext hune, hh]; simp)
          rw [hI', hS', hA', matchEnd_append hE ext]
        | none =>
          rw [hE] at h
          have hh := matchBoolean_head h
          have hI' : matchInteger (u ++ ext) = none :=
            matchInteger_none_of_head (by rw [head?_append_of_ne_nil ext hune, hh]; simp)
          have hS' : matchString (u ++ ext) = none :=
            matchString_none_of_head (by rw [head?_append_of_ne_nil ext hune, hh]; simp)
          have hA' : matchArray (u ++ ext) = none :=
            matchArray_none_of_head (by rw [head?_append_of_ne_nil ext hune, hh]; simp)
          have hE' : matchEnd (u ++ ext) = none :=
            matchEnd_none_of_head (by rw [head?_append_of_ne_nil ext hune, hh]; simp)
          rw [hI', hS', hA', hE']
          exact matchBoolean_append h hk ext

/-- A closing brace always lexes as the 1-byte array-close token, whatever
follows it. -/
theorem tokM_close (r : List Char) : tokM ('}' :: r) = some 1 := by
  cases r with
  | nil => rfl
  | cons x xs => rfl

/-- Well-formed body of one array level: a sequence of complete tokens
(scalars or complete nested arrays) closed by the matching brace; `Body s l r`
says the builder loop started on `s` assembles exactly the nodes `l` and
hands back the buffer `r` lying after the consumed closing brace. -/
inductive Body : List Char → List Node → List Char → Prop where
  | exit (r : List Char) : Body ('}' :: r) [] r
  | push (t s : List Char) (nd : Node) (l : List Node) (r : List Char)
      (h₁ : tokM (t ++ s) = some t.length)
      (h₂ : stepOf (stripSemi t) = .push nd)
      (hb : Body s l r) : Body (t ++ s) (nd :: l) r
  | enter (d rest : List Char) (inner : List Node) (m : List Char)
      (l : List Node) (r : List Char)
      (hd : d.all Char.isDigit = true) (hdne : d ≠ [])
      (hinner : Body rest inner m) (hrest : Body m l r) :
      Body (arrTok d ++ rest) (.nlist inner :: l) r

/-- A well-formed body is never empty (it holds at least its brace). -/
theorem Body_ne {s : List Char} {l : List Node} {r : List Char} (hb : Body s l r) :
    s ≠ [] := by
  cases hb with
  | exit r => simp
  | push t s' nd l' r' h₁ h₂ hb =>
    have hp := tokM_pos h₁
    intro hh
    obtain ⟨ht, -⟩ := List.append_eq_nil.mp hh
    rw [ht] at hp
    simp at hp
  | enter d rest inner m l' r' hd hdne hinner hrest => simp [arrTok]

/-- The builder on a well-formed body appends exactly its nodes and stops at
the buffer after the closing brace. -/
theorem Body_run {s : List Char} {l : List Node} {r : List Char} (hb : Body s l r) :
    ∀ acc : List Node, nestLevelRun s acc = .ok (acc ++ l, r) := by
  induction hb with
  | exit r =>
    intro acc
    have he := @nestLevelRun_exit' ('}' :: r) 1 (by simp) acc (tokM_close r) rfl
    simpa using he
  | push t s' nd l' r' h₁ h₂ hb ih =>
    intro acc
    have htne : t ≠ [] := by
      intro hh
      have hp := tokM_pos h₁
      rw [hh] at hp
      simp at hp
    have hne : t ++ s' ≠ [] := fun hc => htne (List.append_eq_nil.mp hc).1
    have hstep : stepOf (stripSemi ((t ++ s').take t.length)) = .push nd := by
      rw [List.take_left]
      exact h₂
    have he := nestLevelRun_push' hne acc h₁ hstep
    rw [List.drop_left] at he
    rw [he, ih (acc ++ [nd])]
    simp

  | enter d rest inner m l' r' hd hdne hinner hrest ih₁ ih₂ =>
    intro acc
    have hne : arrTok d ++ rest ≠ [] := by simp [arrTok]
    have hstep : stepOf (stripSemi ((arrTok d ++ rest).take (arrTok d).length)) = .enter := by
      rw [List.take_left]
      exact stepOf_arrTok d
    have heq := nestLevelRun_enter' hne acc (tokM_arrTok hd hdne rest) hstep
    rw [List.drop_left] at heq
    have ih₁' : nestLevelRun rest [] = .ok (inner, m) := by simpa using ih₁ []
    rw [heq, ih₁']
    show nestLevelRun m (acc ++ [Node.nlist inner]) = .ok (acc ++ (Node.nlist inner :: l'), r')
    rw [ih₂ (acc ++ [Node.nlist inner])]
    simp

/-- Extending the buffer behind a well-formed body does not disturb it: all
its token spans end strictly before the closing brace's aftermath, so the
greedy matches are unchanged. -/
theorem Body_append {s : List Char} {l : List Node} {r : List Char} (hb : Body s l r) :
    ∀ ext : List Char, Body (s ++ ext) l (r ++ ext) := by
  induction hb with
  | exit r => intro ext; exact Body.exit (r ++ ext)
  | push t s' nd l' r' h₁ h₂ hb ih =>
    intro ext
    have hs'ne : s' ≠ [] := Body_ne hb
    have hklt : t.length < (t ++ s').length := by
      rw [List.length_append]
      have := List.length_pos.mpr hs'ne
      omega
    have h₁' : tokM ((t ++ s') ++ ext) = some t.length := tokM_append h₁ hklt ext
    rw [List.append_assoc] at h₁'
    rw [List.append_assoc]
    exact Body.push t (s' ++ ext) nd l' (r' ++ ext) h₁' h₂ (ih ext)
  | enter d rest inner m l' r' hd hdne hinner hrest ih₁ ih₂ =>
    intro ext
    rw [List.append_assoc]
    exact Body.enter d (rest ++ ext) inner (m ++ ext) l' (r' ++ ext) hd hdne
      (ih₁ ext) (ih₂ ext)

/-- Decoding a complete root array built from a well-formed body converts
that body's nodes. -/
theorem decode_arrTok_body (d s : List Char) (root : List Node)
    (hd : d.all Char.isDigit = true) (hdne : d ≠ []) (hb : Body s root []) :
    decode (arrTok d ++ s) = convertTop (.nlist root) := by
  have hne : arrTok d ++ s ≠ [] := by simp [arrTok]
  have hstep : stepOf (stripSemi ((arrTok d ++ s).take (arrTok d).length)) = .enter := by
    rw [List.take_left]
    exact stepOf_arrTok d
  have heq := nestLevelRun_enter' hne [] (tokM_arrTok hd hdne s) hstep
  rw [List.drop_left] at heq
  have hrun : nestLevelRun s [] = .ok (root, []) := by simpa using Body_run hb []
  rw [hrun] at heq
  have heq2 : nestLevelRun (arrTok d ++ s) [] = .ok ([Node.nlist root], []) := by
    rw [heq]
    show nestLevelRun [] ([] ++ [Node.nlist root]) = .ok ([Node.nlist root], [])
    rw [nestLevelRun_nil]
    simp
  unfold decode builderOut
  rw [heq2]
  rfl

/-- Decoding a root array whose body is followed by an unmatched closing
brace and arbitrary junk still converts exactly that body's nodes: the
unmatched brace returns from the top-level loop and the junk is discarded. -/
theorem decode_arrTok_body_close (d s junk : List Char) (root : List Node)
    (hd : d.all Char.isDigit = true) (hdne : d ≠ [])
    (hb : Body s root ('}' :: junk)) :
    decode (arrTok d ++ s) = convertTop (.nlist root) := by
  have hne : arrTok d ++ s ≠ [] := by simp [arrTok]
  have hstep : stepOf (stripSemi ((arrTok d ++ s).take (arrTok d).length)) = .enter := by
    rw [List.take_left]
    exact stepOf_arrTok d
  have heq := nestLevelRun_enter' hne [] (tokM_arrTok hd hdne s) hstep
  rw [List.drop_left] at heq
  have hrun : nestLevelRun s [] = .ok (root, '}' :: junk) := by simpa using Body_run hb []
  rw [hrun] at heq
  have hexit := @nestLevelRun_exit' ('}' :: junk) 1 (by simp)
    ([] ++ [Node.nlist root]) (tokM_close junk) rfl
  have heq2 : nestLevelRun (arrTok d ++ s) [] = .ok ([Node.nlist root], junk) := by
    rw [heq]
    show nestLevelRun ('}' :: junk) ([] ++ [Node.nlist root]) =
      .ok ([Node.nlist root], junk)
    rw [hexit]
    simp
  unfold decode builderOut
  rw [heq2]
  rfl

/-- C10: an input made of a well-formed top-level array followed by an
unmatched closing brace and arbitrary further text decodes exactly as the
well-formed prefix alone — the decoder returns the prefix's record and
silently ignores everything from the unmatched brace onward. -/
theorem c10_trailing_garbage (d s junk : List Char) (root : List Node)
    (hd : d.all Char.isDigit = true) (hdne : d ≠ []) (hb : Body s root []) :
    decode ((arrTok d ++ s) ++ '}' :: junk) = decode (arrTok d ++ s) ∧
    decode (arrTok d ++ s) = convertTop (.nlist root) := by
  have hb' : Body (s ++ '}' :: junk) root ('}' :: junk) := by
    have := Body_append hb ('}' :: junk)
    simpa using this
  constructor
  · rw [List.append_assoc]
    rw [decode_arrTok_body_close d (s ++ '}' :: junk) junk root hd hdne hb']
    rw [decode_arrTok_body d s root hd hdne hb]
  · exact decode_arrTok_body d s root hd hdne hb

/-- C10 witness: `a:2:{i:1;i:2;}` followed by an unmatched brace and the
text `garbage!` decodes exactly as the prefix, namely to the record mapping
1 to 2. -/
theorem c10_witness :
    decode (['a', ':', '2', ':', '{', 'i', ':', '1', ';', 'i', ':', '2', ';', '}'] ++
        '}' :: ['g', 'a', 'r', 'b', 'a', 'g', 'e', '!']) =
      decode ['a', ':', '2', ':', '{', 'i', ':', '1', ';', 'i', ':', '2', ';', '}'] ∧
    decode ['a', ':', '2', ':', '{', 'i', ':', '1', ';', 'i', ':', '2', ';', '}'] =
      .ok (.cons (.kint 1) (.vint 2) .nil) := by
  constructor
  · exact (c10_trailing_garbage ['2'] ['i', ':', '1', ';', 'i', ':', '2', ';', '}']
      ['g', 'a', 'r', 'b', 'a', 'g', 'e', '!'] [Node.nint 1, Node.nint 2] rfl (by decide)
      (Body.push ['i', ':', '1', ';'] ['i', ':', '2', ';', '}'] (.nint 1) [Node.nint 2] []
        rfl rfl
        (Body.push ['i', ':', '2', ';'] ['}'] (.nint 2) [] [] rfl rfl (Body.exit [])))).1
  · rfl
